import Mathlib

set_option maxRecDepth 8000

/-!
Shallow embedding of the city-resolution subsystem of
`src/extractors/city_extractor.py` (class `CityExtractor`), together with the
constants it reads from `src/config.py` (`CITY_SECTION_MAX_LINES = 30`,
`SPACY_CITY_MODELS`).  Strings are modelled as `List Char`; Python's `re`
patterns are hand-translated into explicit backtracking matchers with the same
leftmost/greedy semantics on the alphabet the program handles (ASCII plus the
Polish and German letters appearing literally in the patterns).  spaCy
pipelines are modelled as opaque functions from text to entity lists, and
`spacy.load` as a partial function supplied by the environment; entity scores
(Python floats built from 0.1/0.2/1.0 and len/40 with a 0.3 cap) are modelled
as exact rationals.
-/

namespace TransportOrders

/-! ### Characters: whitespace, digits, word characters, case mapping -/

/-- Python `\s` restricted to the six ASCII whitespace characters. -/
def isWsC (c : Char) : Bool :=
  c = ' ' || c = '\t' || c = '\n' || c = '\r' || c = Char.ofNat 11 || c = Char.ofNat 12

/-- Python `\d` / `str.isdigit` on ASCII digits. -/
def isDigitC (c : Char) : Bool := '0' ≤ c && c ≤ '9'

/-- The apostrophe character, which occurs in the city character classes. -/
def apos : Char := Char.ofNat 39

def isAsciiUpper (c : Char) : Bool := 'A' ≤ c && c ≤ 'Z'
def isAsciiLower (c : Char) : Bool := 'a' ≤ c && c ≤ 'z'

def plUpperL : List Char := ['Ą', 'Ć', 'Ę', 'Ł', 'Ń', 'Ó', 'Ś', 'Ż', 'Ź']
def plLowerL : List Char := ['ą', 'ć', 'ę', 'ł', 'ń', 'ó', 'ś', 'ż', 'ź']
def deUpperL : List Char := ['Ä', 'Ö', 'Ü']
def deLowerL : List Char := ['ä', 'ö', 'ü']

/-- Upper/lower case pairs for the alphabet the extractor handles
(`str.lower` / `str.upper` / `str.capitalize` restricted to it). -/
def caseTable : List (Char × Char) :=
  [('A', 'a'), ('B', 'b'), ('C', 'c'), ('D', 'd'), ('E', 'e'), ('F', 'f'),
   ('G', 'g'), ('H', 'h'), ('I', 'i'), ('J', 'j'), ('K', 'k'), ('L', 'l'),
   ('M', 'm'), ('N', 'n'), ('O', 'o'), ('P', 'p'), ('Q', 'q'), ('R', 'r'),
   ('S', 's'), ('T', 't'), ('U', 'u'), ('V', 'v'), ('W', 'w'), ('X', 'x'),
   ('Y', 'y'), ('Z', 'z'),
   ('Ą', 'ą'), ('Ć', 'ć'), ('Ę', 'ę'), ('Ł', 'ł'), ('Ń', 'ń'), ('Ó', 'ó'),
   ('Ś', 'ś'), ('Ż', 'ż'), ('Ź', 'ź'),
   ('Ä', 'ä'), ('Ö', 'ö'), ('Ü', 'ü'), ('ẞ', 'ß')]

def lowerChar (c : Char) : Char :=
  match caseTable.find? (fun p => p.1 = c) with
  | some p => p.2
  | none => c

def upperChar (c : Char) : Char :=
  match caseTable.find? (fun p => p.2 = c) with
  | some p => p.1
  | none => c

/-- Title-casing of a single character, as used by Python `str.capitalize` on
the first character ('ß' title-cases to the two-character string "Ss"). -/
def titleChar (c : Char) : List Char :=
  if c = 'ß' then ['S', 's'] else [upperChar c]

/-- Python `\w` (`re` word character) over the program's alphabet. -/
def isWordChar (c : Char) : Bool :=
  isAsciiUpper c || isAsciiLower c || isDigitC c || c = '_' ||
    (plUpperL ++ plLowerL ++ deUpperL ++ deLowerL ++ ['ẞ', 'ß']).contains c

/-! ### Character classes of the five compiled patterns -/

/-- Class `[A-Za-zĄĆĘŁŃÓŚŻŹąćęłńóśżź .\-']` — the Polish city class. -/
def plCityChar (c : Char) : Bool :=
  isAsciiUpper c || isAsciiLower c || (plUpperL ++ plLowerL).contains c ||
    c = ' ' || c = '.' || c = '-' || c = apos

/-- Class `[A-Za-zÄÖÜäöüẞß .\-']` — the German city class. -/
def deCityChar (c : Char) : Bool :=
  isAsciiUpper c || isAsciiLower c || (deUpperL ++ deLowerL ++ ['ẞ', 'ß']).contains c ||
    c = ' ' || c = '.' || c = '-' || c = apos

/-- Class `[A-ZĄĆĘŁŃÓŚŻŹÄÖÜ]` — first character of `_pattern_city_only`. -/
def cityFirstChar (c : Char) : Bool :=
  isAsciiUpper c || plUpperL.contains c || deUpperL.contains c

/-- Class `[A-Za-zĄĆĘŁŃÓŚŻŹÄÖÜäöüẞß .\-']` — continuation class of
`_pattern_city_only` (note: no lowercase Polish diacritics). -/
def cityRestChar (c : Char) : Bool :=
  isAsciiUpper c || isAsciiLower c || plUpperL.contains c ||
    (deUpperL ++ deLowerL ++ ['ẞ', 'ß']).contains c ||
    c = ' ' || c = '.' || c = '-' || c = apos

/-- Class `[A-Za-z .\-']` — the ASCII tail class after `b\.` in `_pattern_city_only`. -/
def asciiTailChar (c : Char) : Bool :=
  isAsciiUpper c || isAsciiLower c || c = ' ' || c = '.' || c = '-' || c = apos

/-! ### List-of-characters utilities (Python `str` operations) -/

/-- Python `str.strip` (left side). -/
def lstripWs (l : List Char) : List Char := l.dropWhile isWsC

/-- Python `str.strip` (right side). -/
def rstripWs (l : List Char) : List Char := (l.reverse.dropWhile isWsC).reverse

/-- Python `str.strip`. -/
def stripWs (l : List Char) : List Char := rstripWs (lstripWs l)

/-- Split on a single separator character, keeping empty chunks
(Python `str.split(sep)` with a one-character separator). -/
def splitCh (sep : Char) : List Char → List (List Char)
  | [] => [[]]
  | c :: t =>
    if c = sep then [] :: splitCh sep t
    else
      match splitCh sep t with
      | h :: r => (c :: h) :: r
      | [] => [[c]]

/-- Python `"sep".join` for a one-character separator. -/
def joinCh (sep : Char) : List (List Char) → List Char
  | [] => []
  | [w] => w
  | w :: ws => w ++ sep :: joinCh sep ws

/-- Python `str.splitlines` restricted to `\n` line breaks (the decoder
produces `\n`-separated text): like splitting on `\n` but without a trailing
empty line, and `[]` on the empty string. -/
def splitLines (l : List Char) : List (List Char) :=
  if l = [] then []
  else if l.getLastD ' ' = '\n' then (splitCh '\n' l).dropLast
  else splitCh '\n' l

/-- Python `re.sub(r"\s+", " ", s)`: each maximal whitespace run becomes a single
space.  The flag records whether the previous character was whitespace, so
only the first character of a run emits the space. -/
def squeezeAux : Bool → List Char → List Char
  | _, [] => []
  | inRun, c :: t =>
    if isWsC c then
      if inRun then squeezeAux true t else ' ' :: squeezeAux true t
    else c :: squeezeAux false t

def squeezeWs (l : List Char) : List Char := squeezeAux false l

/-- Python `re.sub(r"\s+", " ", s).strip()`. -/
def collapseWs (l : List Char) : List Char := stripWs (squeezeWs l)

/-- Is `pat` a prefix of `l`? -/
def leadsWith : List Char → List Char → Bool
  | [], _ => true
  | _ :: _, [] => false
  | a :: as, b :: bs => a = b && leadsWith as bs

/-- Does `pat` occur as a contiguous substring of `l`? -/
def hasSubB (pat : List Char) : List Char → Bool
  | [] => leadsWith pat []
  | c :: t => leadsWith pat (c :: t) || hasSubB pat t

/-- Python `s.split(tok, 1)[0]`: the part of `l` before the first occurrence
of `pat` (all of `l` if `pat` does not occur). -/
def cutTok (pat : List Char) : List Char → List Char
  | [] => []
  | c :: t => if leadsWith pat (c :: t) then [] else c :: cutTok pat t

/-- Accumulate candidates in order, dropping empties and duplicates
(the `seen` set plus `found` list idiom). -/
def dedupKeep (cs : List (List Char)) : List (List Char) :=
  cs.foldl (fun acc c => if c ≠ [] ∧ c ∉ acc then acc ++ [c] else acc) []

/-- The maximal whitespace-separated words of a string (used to reason about
`collapseWs`: collapsing a string joins its words with single spaces). -/
def wordsOf : List Char → List (List Char)
  | [] => []
  | [c] => if isWsC c then [] else [[c]]
  | c :: d :: t =>
    if isWsC c then wordsOf (d :: t)
    else if isWsC d then [c] :: wordsOf (d :: t)
    else
      match wordsOf (d :: t) with
      | w :: ws => (c :: w) :: ws
      | [] => [[c]]

/-! ### Regex machinery

Python `re.search` scans for the leftmost position at which the pattern
matches, with greedy backtracking inside the pattern.  Each pattern below is
rendered as a position matcher taking the previous character (for `\b`) and
the remaining text, and a generic scanner tries it at every position from the
left. -/

/-- Boundary `\b` immediately before a word character: start of string or a non-word
previous character. -/
def wordB (prev : Option Char) : Bool :=
  match prev with
  | none => true
  | some c => ¬ isWordChar c

/-- Boundary `\b` between a last consumed character and the rest of the input. -/
def bndAfter (lastC : Char) (rest : List Char) : Bool :=
  isWordChar lastC ≠ (match rest with | [] => false | c :: _ => isWordChar c)

/-- Leftmost-match scanner: try the position matcher at every index. -/
def searchA (m : Option Char → List Char → Option α) :
    Option Char → List Char → Option α
  | _, [] => none
  | prev, c :: t =>
    match m prev (c :: t) with
    | some r => some r
    | none => searchA m (some c) t

/-- A nonempty greedy run of class characters: `cls+` with nothing after it
in the pattern. -/
def capRun (cls : Char → Bool) (l : List Char) : Option (List Char × List Char) :=
  match l.span cls with
  | (a, b) => if a = [] then none else some (a, b)

/-- Fragment `\s+cls+` with full backtracking (the run of `\s` is greedy, giving back
one character at a time; a given-back whitespace character may start the
capture when the class contains it).  Returns (whitespace span, capture,
rest). -/
def wsCap (cls : Char → Bool) : List Char → Option (List Char × List Char × List Char)
  | [] => none
  | c :: t =>
    if isWsC c then
      match wsCap cls t with
      | some (w, a, r) => some (c :: w, a, r)
      | none =>
        match capRun cls t with
        | some (a, r) => some ([c], a, r)
        | none => none
    else none

/-- The optional `(?:\s+b\.\s+cls+)?` tail of the zip+city patterns (no
trailing boundary).  `ci` tells whether `b` is matched case-insensitively.
Returns (matched span, rest). -/
def bTail (ci : Bool) (cls : Char → Bool) (l : List Char) :
    Option (List Char × List Char) :=
  match l.span isWsC with
  | (w, r) =>
    if w = [] then none
    else
      match r with
      | b :: dot :: r2 =>
        if (if ci then (b = 'b' ∨ b = 'B') else b = 'b') ∧ dot = '.' then
          match wsCap cls r2 with
          | some (w2, a2, rest) => some (w ++ b :: '.' :: (w2 ++ a2), rest)
          | none => none
        else none
      | _ => none

/-- One optional whitespace character (`\s?`). -/
def skipOneWs (l : List Char) : List Char :=
  match l with
  | c :: t => if isWsC c then t else l
  | [] => []

/-- One optional dash (`-?`). -/
def skipOneDash (l : List Char) : List Char :=
  match l with
  | '-' :: t => t
  | _ => l

/-! ### The five compiled city patterns -/

/-- Pattern `_pattern_pl_zip_city` at one position:
`\bPL\s?\d{2}-\d{3}\s+([PL city]+(?:\s+b\.\s+[PL city]+)?)`, `re.IGNORECASE`;
returns group 1. -/
def matchPlZipAt (prev : Option Char) (l : List Char) : Option (List Char) :=
  if wordB prev then
    match l with
    | p :: q :: r =>
      if lowerChar p = 'p' ∧ lowerChar q = 'l' then
        match skipOneWs r with
        | d1 :: d2 :: '-' :: d3 :: d4 :: d5 :: r2 =>
          if isDigitC d1 ∧ isDigitC d2 ∧ isDigitC d3 ∧ isDigitC d4 ∧ isDigitC d5 then
            match wsCap plCityChar r2 with
            | some (_, cap, rest) =>
              match bTail true plCityChar rest with
              | some (tl, _) => some (cap ++ tl)
              | none => some cap
            | none => none
          else none
        | _ => none
      else none
    | _ => none
  else none

/-- Pattern `_pattern_de_zip_city` at one position:
`\bD\s?-?\d{4,5}\s+([DE city]+)`, `re.IGNORECASE`; returns group 1. -/
def matchDeZipAt (prev : Option Char) (l : List Char) : Option (List Char) :=
  if wordB prev then
    match l with
    | d0 :: r =>
      if lowerChar d0 = 'd' then
        let r2 := skipOneDash (skipOneWs r)
        match r2.span isDigitC with
        | (ds, r3) =>
          if ds.length = 4 ∨ ds.length = 5 then
            match wsCap deCityChar r3 with
            | some (_, cap, _) => some cap
            | none => none
          else none
      else none
    | [] => none
  else none

/-- Pattern `_pattern_pl_bare_zip_city` at one position:
`\b\d{2}-\d{3}\s+([PL city]+(?:\s+b\.\s+[PL city]+)?)` (case-sensitive). -/
def matchPlBareAt (prev : Option Char) (l : List Char) : Option (List Char) :=
  if wordB prev then
    match l with
    | d1 :: d2 :: '-' :: d3 :: d4 :: d5 :: r2 =>
      if isDigitC d1 ∧ isDigitC d2 ∧ isDigitC d3 ∧ isDigitC d4 ∧ isDigitC d5 then
        match wsCap plCityChar r2 with
        | some (_, cap, rest) =>
          match bTail false plCityChar rest with
          | some (tl, _) => some (cap ++ tl)
          | none => some cap
        | none => none
      else none
    | _ => none
  else none

/-- Pattern `_pattern_de_bare_zip_city` at one position: `\b\d{5}\s+([DE city]+)`. -/
def matchDeBareAt (prev : Option Char) (l : List Char) : Option (List Char) :=
  if wordB prev then
    match l.span isDigitC with
    | (ds, r) =>
      if ds.length = 5 then
        match wsCap deCityChar r with
        | some (_, cap, _) => some cap
        | none => none
      else none
  else none

/-- Fragment `\s+cls+\b` with full backtracking, for the tail of `_pattern_city_only`:
returns the matched span (whitespace plus capture) with the trailing word
boundary satisfied. -/
def wsCapBnd (cls : Char → Bool) : List Char → Option (List Char)
  | [] => none
  | c :: t =>
    if isWsC c then
      match wsCapBnd cls t with
      | some sp => some (c :: sp)
      | none =>
        match capBndAux (t.takeWhile cls).reverse (t.dropWhile cls) with
        | some cap => some (c :: cap)
        | none => none
    else none
where
  /-- Greedy `cls+` then `\b`, shrinking from the right; the run is passed
  reversed so the last character is at the head. -/
  capBndAux : List Char → List Char → Option (List Char)
    | [], _ => none
    | c :: rrun, rest =>
      if bndAfter c rest then some ((c :: rrun).reverse)
      else capBndAux rrun (c :: rest)

/-- The optional `(?:\s+b\.\s+[A-Za-z .\-']+)?` tail of `_pattern_city_only`
followed by the pattern's closing `\b`. -/
def bTailBnd (l : List Char) : Option (List Char) :=
  match l.span isWsC with
  | (w, r) =>
    if w = [] then none
    else
      match r with
      | 'b' :: '.' :: r2 =>
        match wsCapBnd asciiTailChar r2 with
        | some sp => some (w ++ 'b' :: '.' :: sp)
        | none => none
      | _ => none

/-- Backtracking over the greedy `{2,}` run of `_pattern_city_only`
(run passed reversed, last character first): at each length try the optional
tail, then the bare trailing `\b`, then give back one character. -/
def cityShrink (c0 : Char) : List Char → List Char → Option (List Char)
  | rrun, rest =>
    if rrun.length < 2 then none
    else
      match rrun with
      | [] => none
      | c :: rr =>
        match bTailBnd rest with
        | some tl => some (c0 :: rrun.reverse ++ tl)
        | none =>
          if bndAfter c rest then some (c0 :: rrun.reverse)
          else cityShrink c0 rr (c :: rest)

/-- Pattern `_pattern_city_only` at one position:
`\b([A-Z…][…]{2,}(?:\s+b\.\s+[A-Za-z .\-']+)?)\b`; returns group 1. -/
def matchCityOnlyAt (prev : Option Char) (l : List Char) : Option (List Char) :=
  if wordB prev then
    match l with
    | c0 :: r =>
      if cityFirstChar c0 then
        cityShrink c0 (r.takeWhile cityRestChar).reverse (r.dropWhile cityRestChar)
      else none
    | [] => none
  else none

def search_pl_zip (l : List Char) : Option (List Char) := searchA matchPlZipAt none l
def search_de_zip (l : List Char) : Option (List Char) := searchA matchDeZipAt none l
def search_pl_bare (l : List Char) : Option (List Char) := searchA matchPlBareAt none l
def search_de_bare (l : List Char) : Option (List Char) := searchA matchDeBareAt none l
def search_city_only (l : List Char) : Option (List Char) := searchA matchCityOnlyAt none l

/-! ### The two `re.sub` patterns of `_clean_city` -/

/-- Pattern `\b(?:PL|D|D-)\s?\d{2}-?\d{3,5}\s*` (`re.IGNORECASE`) at one position:
returns (last consumed character, rest) on a match.  The alternation tries
`PL`, then `D`, then `D-`; `\d{3,5}` is greedy with no constraint after it,
so it takes `min(run, 5)` digits provided at least 3 are available. -/
def matchSubPrefixAt (prev : Option Char) (l : List Char) :
    Option (Char × List Char) :=
  if wordB prev then
    match l with
    | p :: q :: r =>
      if lowerChar p = 'p' ∧ lowerChar q = 'l' then subPrefixDigits r
      else deBranch (p :: q :: r)
    | l' => deBranch l'
  else none
where
  /-- Fragment `\s?\d{2}-?\d{3,5}\s*`: returns (last consumed character, rest). -/
  subPrefixDigits (r : List Char) : Option (Char × List Char) :=
    match skipOneWs r with
    | d1 :: d2 :: r2 =>
      if isDigitC d1 ∧ isDigitC d2 then
        match r2 with
        | '-' :: r3 =>
          match r3.span isDigitC with
          | (ds, r4) =>
            if ds.length ≥ 3 then finish (ds.take 5) (ds.drop 5 ++ r4)
            else none
        | _ =>
          match r2.span isDigitC with
          | (ds, r4) =>
            if ds.length ≥ 3 then finish (ds.take 5) (ds.drop 5 ++ r4)
            else none
      else none
    | _ => none
  /-- Consume the trailing `\s*` after the digit block `ds` (nonempty). -/
  finish (ds : List Char) (r : List Char) : Option (Char × List Char) :=
    match r.span isWsC with
    | (w, rest) =>
      match (ds ++ w).getLast? with
      | some c => some (c, rest)
      | none => none
  /-- The `D` and `D-` alternatives. -/
  deBranch : List Char → Option (Char × List Char)
    | d0 :: r =>
      if lowerChar d0 = 'd' then
        match subPrefixDigits r with
        | some res => some res
        | none =>
          match r with
          | '-' :: r2 => subPrefixDigits r2
          | _ => none
      else none
    | [] => none

/-- Pattern `\b\d{2}-?\d{3,5}\b` at one position: returns (last consumed character,
rest).  The trailing `\b` forces the greedy `\d{3,5}` to end exactly at the
end of the digit run, so the run after the optional dash must have length
3–5 and be followed by a non-word character. -/
def matchSubBareAt (prev : Option Char) (l : List Char) :
    Option (Char × List Char) :=
  if wordB prev then
    match l with
    | d1 :: d2 :: r =>
      if isDigitC d1 ∧ isDigitC d2 then
        match r with
        | '-' :: r2 => tailDigits r2
        | _ => tailDigits r
      else none
    | _ => none
  else none
where
  tailDigits (r : List Char) : Option (Char × List Char) :=
    match r.span isDigitC with
    | (ds, rest) =>
      if (3 ≤ ds.length ∧ ds.length ≤ 5) ∧
          (match rest with | [] => true | c :: _ => !(isWordChar c)) = true then
        match ds.getLast? with
        | some c => some (c, rest)
        | none => none
      else none

/-- Global `re.sub(pattern, "", s)`: scan left to right, delete each
leftmost non-overlapping match, keep scanning after it (word boundaries are
judged on the original characters, so the previous character after a deleted
match is the last character of the match). -/
def subAllFuel (m : Option Char → List Char → Option (Char × List Char)) :
    Nat → Option Char → List Char → List Char
  | 0, _, l => l
  | _ + 1, _, [] => []
  | fuel + 1, prev, c :: t =>
    match m prev (c :: t) with
    | some (lastC, rest) => subAllFuel m fuel (some lastC) rest
    | none => c :: subAllFuel m fuel (some c) t

def subAll (m : Option Char → List Char → Option (Char × List Char))
    (l : List Char) : List Char :=
  subAllFuel m l.length none l

/-! ### `_clean_city` -/

/-- Python `re.sub(r"\b(?:PL|D|D-)\s?\d{2}-?\d{3,5}\s*", "", s, flags=re.IGNORECASE)`. -/
def subZipPrefixed (l : List Char) : List Char := subAll matchSubPrefixAt l

/-- Python `re.sub(r"\b\d{2}-?\d{3,5}\b", "", s)`. -/
def subZipBare (l : List Char) : List Char := subAll matchSubBareAt l

/-- The markers `split_tokens = ["na zlec", "auftr", "auftrag", "attn"]`. -/
def split_tokens : List (List Char) :=
  ["na zlec".data, "auftr".data, "auftrag".data, "attn".data]

/-- Python `for tok in split_tokens: s = s.split(tok, 1)[0]` — sequentially truncate
at the first occurrence of each annotation marker (exact, case-sensitive
substring match, as `str.split` performs). -/
def cutMarkers (l : List Char) : List Char :=
  split_tokens.foldl (fun s tok => cutTok tok s) l

/-- Python `re.split(r"[;,|]", s)[0]`. -/
def cutSeps (l : List Char) : List Char :=
  l.takeWhile (fun c => ¬ (c = ';' ∨ c = ',' ∨ c = '|'))

/-- Python `str.capitalize`: title-case the first character, lowercase the
rest. -/
def capFirst : List Char → List Char
  | [] => []
  | c :: t => titleChar c ++ t.map lowerChar

/-- One word of `smart_title`:
`p.capitalize() if not p.endswith('.') else p[:-1].capitalize() + '.'`. -/
def capWord (w : List Char) : List Char :=
  if w.getLastD ' ' = '.' then capFirst w.dropLast ++ ['.']
  else capFirst w

/-- Helper `smart_title`: split on single spaces, capitalize each part, re-join. -/
def smartTitle (l : List Char) : List Char :=
  joinCh ' ' ((splitCh ' ' l).map capWord)

/-- Method `CityExtractor._clean_city`. -/
def clean_city (raw : List Char) : List Char :=
  smartTitle (collapseWs (cutSeps (cutMarkers (subZipBare (subZipPrefixed raw)))))

/-! ### Street and header detection, section location -/

/-- The `_street_tokens` set (all already lowercase). -/
def street_tokens : List (List Char) :=
  ["str.".data, "straße".data, "strasse".data, "allee".data, "ul.".data,
   "ulica".data, "platz".data, "ring".data, "weg".data, "gasse".data,
   "am".data, "an der".data]

/-- Method `CityExtractor._looks_like_street`: the lowered line contains one of the
street tokens as a substring. -/
def looks_like_street (line : List Char) : Bool :=
  street_tokens.any (fun tok => hasSubB tok (line.map lowerChar))

/-- Case-insensitive literal substring search, modelling
`re.search(re.escape(t), line, re.IGNORECASE)` for a literal `t`. -/
def hasSubCI (tok line : List Char) : Bool :=
  hasSubB (tok.map lowerChar) (line.map lowerChar)

/-- The header tokens of `_looks_like_header`. -/
def header_tokens : List (List Char) :=
  ["Miejsce załadunku".data, "Miejsce zaladunku".data, "Miejsce rozładunku".data,
   "Miejsce rozladunku".data, "Zlecenie".data, "Samochód".data, "Samochod".data,
   "Vereinbarter Frachtpreis".data, "Termin rozladunku".data]

/-- Method `CityExtractor._looks_like_header`. -/
def looks_like_header (line : List Char) : Bool :=
  header_tokens.any (fun tok => hasSubCI tok line)

/-- Python `re.search(r"\bMiejsce\b", line, re.IGNORECASE)`: the word `miejsce`
case-insensitively, with word boundaries on both sides. -/
def hasMiejsceWord (line : List Char) : Bool :=
  miejsceScan none line
where
  matchFrom : List Char → List Char → Bool
    | [], rest => (match rest with | [] => true | c :: _ => !(isWordChar c))
    | a :: as, c :: t => lowerChar c = a && matchFrom as t
    | _ :: _, [] => false
  miejsceScan : Option Char → List Char → Bool
    | _, [] => false
    | prev, c :: t =>
      (wordB prev && matchFrom "miejsce".data (c :: t)) || miejsceScan (some c) t

/-- Constant `CITY_SECTION_MAX_LINES` from `config.py`. -/
def CITY_SECTION_MAX_LINES : Nat := 30

/-- The direct-header scan of `_extract_section`: on the first line containing
one of the header literals, collect the following lines up to the line budget,
stopping at a header-like line. -/
def findHeaderBlock (headers : List (List Char)) (maxLines : Nat) :
    List (List Char) → Option (List (List Char))
  | [] => none
  | ln :: rest =>
    if headers.any (fun h => hasSubCI h ln) then
      some ((rest.take maxLines).takeWhile (fun j => ¬ looks_like_header j))
    else findHeaderBlock headers maxLines rest

/-- The split-header scan of `_extract_section`: a line containing the bare
word `Miejsce` followed by a line containing a continuation token; the block
starts two lines later. -/
def findTwoLineBlock (tails : List (List Char)) (maxLines : Nat) :
    List (List Char) → Option (List (List Char))
  | a :: b :: rest =>
    if hasMiejsceWord a ∧ tails.any (fun t => hasSubCI t b) then
      some ((rest.take maxLines).takeWhile (fun j => ¬ looks_like_header j))
    else findTwoLineBlock tails maxLines (b :: rest)
  | _ => none

/-- Method `CityExtractor._extract_section`. -/
def extract_section (text : List Char) (headers tails : List (List Char)) :
    List Char :=
  let lines := splitLines text
  match findHeaderBlock headers CITY_SECTION_MAX_LINES lines with
  | some block => stripWs (joinCh '\n' block)
  | none =>
    match findTwoLineBlock tails CITY_SECTION_MAX_LINES lines with
    | some block => stripWs (joinCh '\n' block)
    | none => []

def loadingHeaders : List (List Char) :=
  ["Miejsce załadunku".data, "Miejsce zaladunku".data]
def loadingTails : List (List Char) := ["załadunku".data, "zaladunku".data]
def unloadingHeaders : List (List Char) :=
  ["Miejsce rozładunku".data, "Miejsce rozladunku".data]
def unloadingTails : List (List Char) := ["rozładunku".data, "rozladunku".data]

/-! ### `_regex_city` -/

/-- Try the four zip+city patterns in their priority order on one line
(`_pattern_pl_zip_city`, `_pattern_de_zip_city`, `_pattern_pl_bare_zip_city`,
`_pattern_de_bare_zip_city`); returns the first group 1. -/
def zipMatch (line : List Char) : Option (List Char) :=
  match search_pl_zip line with
  | some c => some c
  | none =>
    match search_de_zip line with
    | some c => some c
    | none =>
      match search_pl_bare line with
      | some c => some c
      | none => search_de_bare line

/-- The first (zip-pattern) pass of `_regex_city` over the section's lines:
strip each line, skip empty ones, return the first zip capture.  (The digit
density test `sum(c.isdigit() for c in line) > max(3, len(line) // 3)` guards
a `continue` that is the last statement of the loop body, so a non-matching
line contributes nothing whether or not it fires.) -/
def zipPass : List (List Char) → Option (List Char)
  | [] => none
  | ln :: rest =>
    let s := stripWs ln
    if s = [] then zipPass rest
    else
      match zipMatch s with
      | some c => some c
      | none => zipPass rest

/-- The fallback (bare-token) pass of `_regex_city`: strip each line, skip
empty and street-like lines, return the first `_pattern_city_only` capture,
cleaned. -/
def cityPass : List (List Char) → Option (List Char)
  | [] => none
  | ln :: rest =>
    let s := stripWs ln
    if s = [] then cityPass rest
    else if looks_like_street s then cityPass rest
    else
      match search_city_only s with
      | some c => some (clean_city c)
      | none => cityPass rest

/-- Method `CityExtractor._regex_city`. -/
def regex_city (sec : List Char) : Option (List Char) :=
  if sec = [] then none
  else
    match zipPass (splitLines sec) with
    | some c => some (clean_city c)
    | none => cityPass (splitLines sec)

/-! ### spaCy model registry and the entity scorer -/

/-- A spaCy entity span: its label and text. -/
structure Ent where
  label : List Char
  text : List Char

/-- A loaded spaCy pipeline, modelled as a total function from text to the
entity spans it reports. -/
def Pipeline := List Char → List Ent

/-- The state of a `CityExtractor` instance together with its environment:
whether the `spacy` import succeeded (`spacy is not None`), the `spacy.load`
function (`none` models a load failure), the constructor arguments, and the
lazily-filled `_nlp_pipelines` cache. -/
structure Extractor where
  use_spacy : Bool
  spacy_available : Bool
  load : List Char → Option Pipeline
  lang_models : List (List Char)
  nlp_pipelines : Option (List Pipeline)

/-- Method `CityExtractor._ensure_models`: returns the pipeline list and the updated
instance state. -/
def ensure_models (e : Extractor) : List Pipeline × Extractor :=
  if ¬ e.use_spacy ∨ ¬ e.spacy_available then ([], e)
  else
    match e.nlp_pipelines with
    | some ps => (ps, e)
    | none =>
      let ps := e.lang_models.filterMap e.load
      (ps, { e with nlp_pipelines := some ps })

/-- Method `CityExtractor._score_ner_candidate`, with the float arithmetic carried
out exactly in `ℚ`. -/
def score_ner_candidate (ent : Ent) : ℚ :=
  let label := ent.label.map upperChar
  let textVal := stripWs ent.text
  if textVal.any isDigitC then 0
  else if looks_like_street textVal then 0
  else
    let base : ℚ :=
      if label = "GPE".data ∨ label = "LOC".data ∨ label = "PLACE".data then 1
      else if label = "ORG".data then 1/5
      else 1/10
    let base := if textVal.contains '/' then base + 1/5 else base
    base + min ((textVal.length : ℚ) / 40) (3/10)

/-- Stable descending insertion by key (Python `list.sort(key=…,
reverse=True)`): an element is placed before the first list element whose key
is less than or equal to its own, so original order is kept among equals. -/
def insertDescBy (key : α → ℚ × ℕ) (x : α) : List α → List α
  | [] => [x]
  | y :: ys =>
    if (key y).1 < (key x).1 ∨ ((key y).1 = (key x).1 ∧ (key y).2 ≤ (key x).2) then
      x :: y :: ys
    else y :: insertDescBy key x ys

def sortDescBy (key : α → ℚ × ℕ) (l : List α) : List α :=
  l.foldr (insertDescBy key) []

/-- The entity-scoring body shared by `_ner_city`: all positive-score
(score, cleaned text) pairs across the pipelines, in reading order. -/
def scoredCandidates (pipes : List Pipeline) (sec : List Char) :
    List (ℚ × List Char) :=
  pipes.flatMap (fun nlp =>
    (nlp sec).filterMap (fun ent =>
      let sc := score_ner_candidate ent
      if sc ≤ 0 then none else some (sc, clean_city ent.text)))

/-- Method `CityExtractor._ner_city`. -/
def ner_city (e : Extractor) (sec : List Char) : Option (List Char) :=
  if sec = [] ∨ ¬ e.use_spacy then none
  else
    let pipes := (ensure_models e).1
    if pipes.isEmpty then none
    else
      let zipCity := regex_city sec
      match zipCity with
      | some c =>
        if c ≠ [] then some c else nerBest pipes sec
      | none => nerBest pipes sec
where
  nerBest (pipes : List Pipeline) (sec : List Char) : Option (List Char) :=
    let scored := scoredCandidates pipes sec
    if scored = [] then none
    else
      match sortDescBy (fun x => (x.1, x.2.length)) scored with
      | best :: _ => some best.2
      | [] => none

/-! ### `_extract_cities_list` -/

/-- First pass of `_extract_cities_list`: per nonempty line, the first
zip-pattern capture, cleaned; empties and duplicates dropped in order. -/
def cities_pass1 (sec : List Char) : List (List Char) :=
  dedupKeep ((splitLines sec).filterMap (fun ln =>
    let s := stripWs ln
    if s = [] then none else (zipMatch s).map clean_city))

/-- Second pass: per nonempty non-street line, the `_pattern_city_only`
capture, cleaned; empties and duplicates dropped in order. -/
def cities_pass2 (sec : List Char) : List (List Char) :=
  dedupKeep ((splitLines sec).filterMap (fun ln =>
    let s := stripWs ln
    if s = [] ∨ looks_like_street s then none
    else (search_city_only s).map clean_city))

/-- Last-resort pass: positive-score entity candidates in reading order,
empties and duplicates dropped. -/
def cities_pass3 (e : Extractor) (sec : List Char) : List (List Char) :=
  let pipes := (ensure_models e).1
  if pipes.isEmpty then []
  else dedupKeep ((scoredCandidates pipes sec).map (·.2))

/-- Method `CityExtractor._extract_cities_list`. -/
def extract_cities_list (e : Extractor) (sec : List Char) : List (List Char) :=
  let p1 := cities_pass1 sec
  if p1 ≠ [] then p1
  else
    let p2 := cities_pass2 sec
    if p2 ≠ [] then p2
    else cities_pass3 e sec

/-! ### Global fallbacks -/

/-- Method `CityExtractor._find_global_city_candidates`: per nonempty line, a zip
capture (first matching pattern) or else a `_pattern_city_only` capture,
cleaned; then de-duplicated preserving order, empties dropped. -/
def find_global_city_candidates (text : List Char) : List (List Char) :=
  dedupKeep ((splitLines text).filterMap (fun ln =>
    let s := stripWs ln
    if s = [] then none
    else
      match zipMatch s with
      | some c => some (clean_city c)
      | none => (search_city_only s).map clean_city))

/-- Method `CityExtractor._find_global_ner_candidates`. -/
def find_global_ner_candidates (e : Extractor) (text : List Char) :
    List (List Char) :=
  let pipes := (ensure_models e).1
  if pipes.isEmpty then []
  else
    dedupKeep (pipes.flatMap (fun nlp =>
      (nlp text).filterMap (fun ent =>
        if (ent.label.map upperChar) = "LOC".data ∨
            (ent.label.map upperChar) = "GPE".data ∨
            (ent.label.map upperChar) = "PLACE".data then
          let v := stripWs ent.text
          if v.any isDigitC then none else some (clean_city v)
        else none)))

/-! ### The resolver entry points -/

/-- Method `CityExtractor._choose_best`: Python `primary or secondary`. -/
def choose_best (primary secondary : Option (List Char)) : Option (List Char) :=
  match primary with
  | some c => if c ≠ [] then some c else secondary
  | none => secondary

/-- The section-based loading value of `extract_from_text` (before the global
fallback). -/
def section_loading (e : Extractor) (t : List Char) : Option (List Char) :=
  let lb := extract_section t loadingHeaders loadingTails
  if lb ≠ [] then choose_best (regex_city lb) (ner_city e lb) else none

/-- The section-based unloading value of `extract_from_text` (before the
global fallback), including the multi-city join. -/
def section_unloading (e : Extractor) (t : List Char) : Option (List Char) :=
  let ub := extract_section t unloadingHeaders unloadingTails
  if ub ≠ [] then
    let lst := extract_cities_list e ub
    if lst ≠ [] then some (joinCh '-' lst)
    else choose_best (regex_city ub) (ner_city e ub)
  else none

/-- Fill a missing field from the candidate list
(`if field is None and candidates: field = candidates[i]`). -/
def fillMissing (v : Option (List Char)) (cands : List (List Char))
    (pick : List (List Char) → List Char) : Option (List Char) :=
  match v with
  | some c => some c
  | none => if cands = [] then none else some (pick cands)

/-- Method `CityExtractor.extract_from_text`. -/
def extract_from_text (e : Extractor) (t : List Char) :
    Option (List Char) × Option (List Char) :=
  let l₀ := section_loading e t
  let u₀ := section_unloading e t
  let cands := find_global_city_candidates t
  (fillMissing l₀ cands (fun cs => cs.headD []),
   fillMissing u₀ cands (fun cs => cs.getLastD []))

/-- The section-based loading value of `extract_regex_only`. -/
def section_loading_rx (t : List Char) : Option (List Char) :=
  let lb := extract_section t loadingHeaders loadingTails
  if lb ≠ [] then regex_city lb else none

/-- The section-based unloading value of `extract_regex_only`. -/
def section_unloading_rx (t : List Char) : Option (List Char) :=
  let ub := extract_section t unloadingHeaders unloadingTails
  if ub ≠ [] then regex_city ub else none

/-- Method `CityExtractor.extract_regex_only`. -/
def extract_regex_only (t : List Char) :
    Option (List Char) × Option (List Char) :=
  let l₀ := section_loading_rx t
  let u₀ := section_unloading_rx t
  let cands := find_global_city_candidates t
  (fillMissing l₀ cands (fun cs => cs.headD []),
   fillMissing u₀ cands (fun cs => cs.getLastD []))

/-- Method `CityExtractor.extract_ner_only`. -/
def extract_ner_only (e : Extractor) (t : List Char) :
    Option (List Char) × Option (List Char) :=
  let lb := extract_section t loadingHeaders loadingTails
  let ub := extract_section t unloadingHeaders unloadingTails
  let l₀ := if lb ≠ [] then ner_city e lb else none
  let u₀ := if ub ≠ [] then ner_city e ub else none
  let cands := find_global_ner_candidates e t
  (fillMissing l₀ cands (fun cs => cs.headD []),
   fillMissing u₀ cands (fun cs => cs.getLastD []))

/-- The record returned by `CityExtractor.compare_methods`. -/
structure CompareResult where
  regexR : Option (List Char) × Option (List Char)
  spacyR : Option (List Char) × Option (List Char)
  hybridR : Option (List Char) × Option (List Char)
deriving DecidableEq

/-- Method `CityExtractor.compare_methods`. -/
def compare_methods (e : Extractor) (t : List Char) : CompareResult :=
  { regexR := extract_regex_only t
    spacyR := extract_ner_only e t
    hybridR := extract_from_text e t }

/-! ### `String` wrappers for readable statements -/

def clean_cityS (s : String) : String := (clean_city s.data).asString
def regex_cityS (s : String) : Option String := (regex_city s.data).map List.asString
def extract_regex_onlyS (t : String) : Option String × Option String :=
  ((extract_regex_only t.data).1.map List.asString,
   (extract_regex_only t.data).2.map List.asString)
def extract_from_textS (e : Extractor) (t : String) : Option String × Option String :=
  ((extract_from_text e t.data).1.map List.asString,
   (extract_from_text e t.data).2.map List.asString)

/-! ### Concrete extractor instances used in the theorems -/

/-- A default-configured extractor in an environment without the spaCy
package (`spacy = None` after the guarded import): `use_spacy=True` from the
constructor and config, but no models can load. -/
def eNoSpacy : Extractor :=
  { use_spacy := true, spacy_available := false, load := fun _ => none,
    lang_models := ["pl_core_news_sm".data, "de_core_news_sm".data],
    nlp_pipelines := none }

/-- A pipeline that tags the single entity "Berlin" as a geopolitical entity
on any input. -/
def berlinPipe : Pipeline := fun _ => [⟨"GPE".data, "Berlin".data⟩]

/-- An extractor whose two configured models both load as `berlinPipe`. -/
def eTagger : Extractor :=
  { use_spacy := true, spacy_available := true, load := fun _ => some berlinPipe,
    lang_models := ["pl_core_news_sm".data, "de_core_news_sm".data],
    nlp_pipelines := none }

/-! ### Helper lemmas about the pattern passes -/

/-- Lines that are empty after stripping, or on which no zip pattern
matches, are passed over by the zip pass. -/
theorem zipPass_append_none (pre rest : List (List Char))
    (h : ∀ l ∈ pre, stripWs l = [] ∨ zipMatch (stripWs l) = none) :
    zipPass (pre ++ rest) = zipPass rest := by
  induction pre with
  | nil => rfl
  | cons a as ih =>
    have hrec := ih (fun l hl => h l (by simp [hl]))
    rcases h a (by simp) with h1 | h1
    · simpa [zipPass, h1] using hrec
    · by_cases he : stripWs a = []
      · simpa [zipPass, he] using hrec
      · simpa [zipPass, he, h1] using hrec

/-- If no line of the list produces a zip match, the zip pass is empty. -/
theorem zipPass_eq_none (ls : List (List Char))
    (h : ∀ l ∈ ls, zipMatch (stripWs l) = none) : zipPass ls = none := by
  have := zipPass_append_none ls [] (fun l hl => Or.inr (h l hl))
  simpa using this

/-- The first line that strips nonempty and produces a zip match determines
the zip pass. -/
theorem zipPass_first_match (pre post : List (List Char)) (ln c : List Char)
    (hpre : ∀ l ∈ pre, stripWs l = [] ∨ zipMatch (stripWs l) = none)
    (hln : zipMatch (stripWs ln) = some c) :
    zipPass (pre ++ ln :: post) = some c := by
  rw [zipPass_append_none pre (ln :: post) hpre]
  have hne : stripWs ln ≠ [] := by
    intro he
    rw [he] at hln
    simp [zipMatch, search_pl_zip, search_de_zip, search_pl_bare, search_de_bare,
      searchA] at hln
  simp [zipPass, hne, hln]

/-- Lemma: `splitLines` of a nonempty decomposition forces a nonempty input. -/
theorem splitLines_ne_nil_of (sec : List Char) (pre post : List (List Char))
    (ln : List Char) (hsplit : splitLines sec = pre ++ ln :: post) : sec ≠ [] := by
  intro he
  subst he
  simp [splitLines] at hsplit

/-! ### Claim theorems -/

/-- C1: if some line of a section is the first to produce a zip-anchored
match and it does so through a country-prefixed pattern (PL + 2-digit-dash-
3-digit, or D + 4-5 digits) capturing the trailing city name, then the
single-city Pattern Cascade `_regex_city` returns that captured city with
the postal code and country prefix removed and word-wise capitalization
applied (the `_clean_city` normalization of the capture). -/
theorem c1_prefixed_zip_yields_city (sec : List Char) (pre post : List (List Char))
    (ln c : List Char)
    (hsplit : splitLines sec = pre ++ ln :: post)
    (hpre : ∀ l ∈ pre, stripWs l = [] ∨ zipMatch (stripWs l) = none)
    (hln : search_pl_zip (stripWs ln) = some c ∨
      (search_pl_zip (stripWs ln) = none ∧ search_de_zip (stripWs ln) = some c)) :
    regex_city sec = some (clean_city c) := by
  have hz : zipMatch (stripWs ln) = some c := by
    rcases hln with h | ⟨h0, h⟩
    · simp [zipMatch, h]
    · simp [zipMatch, h0, h]
  have hne := splitLines_ne_nil_of sec pre post ln hsplit
  have := zipPass_first_match pre post ln c hpre hz
  rw [← hsplit] at this
  simp [regex_city, hne, this]

/-- C1 witness: the line "PL62-090  Rokietnica" as a single-line section
yields "Rokietnica". -/
theorem c1_prefixed_zip_yields_city_witness :
    regex_city "PL62-090  Rokietnica".data = some "Rokietnica".data :=
  (c1_prefixed_zip_yields_city "PL62-090  Rokietnica".data []
      [] "PL62-090  Rokietnica".data "Rokietnica".data
      (by decide) (by decide) (Or.inl (by decide))).trans (by decide)

/-- C2: whenever the located unloading section yields a nonempty city list,
`extract_from_text` reports the cities joined with "-", and whenever the
zip-anchored first pass is nonempty, that list is exactly the zip-anchored
matches in document order, de-duplicated by normalized value. -/
theorem c2_unloading_multi_city_join (e : Extractor) (t : List Char)
    (l : List (List Char))
    (hblock : extract_section t unloadingHeaders unloadingTails ≠ [])
    (hub : extract_cities_list e (extract_section t unloadingHeaders unloadingTails) = l)
    (hne : l ≠ []) :
    (extract_from_text e t).2 = some (joinCh '-' l) ∧
      (cities_pass1 (extract_section t unloadingHeaders unloadingTails) ≠ [] →
        l = cities_pass1 (extract_section t unloadingHeaders unloadingTails)) := by
  constructor
  · have hsec : section_unloading e t = some (joinCh '-' l) := by
      simp only [section_unloading]
      simp [hblock, hub, hne]
    simp [extract_from_text, fillMissing, hsec]
  · intro hp1
    rw [extract_cities_list] at hub
    simp [hp1] at hub
    exact hub.symm

/-- C2 witness: "66-008  Świdnica" then "65-001  Zielona Góra" in the
unloading section resolve to "Świdnica-Zielona Góra". -/
theorem c2_unloading_multi_city_join_witness :
    (extract_from_text eNoSpacy ("Miejsce zaladunku\nPL62-090  Rokietnica\n" ++
        "Miejsce rozladunku\n66-008  Świdnica\n65-001  Zielona Góra").data).2 =
      some "Świdnica-Zielona Góra".data ∧
    ["Świdnica".data, "Zielona Góra".data] =
      cities_pass1 (extract_section ("Miejsce zaladunku\nPL62-090  Rokietnica\n" ++
        "Miejsce rozladunku\n66-008  Świdnica\n65-001  Zielona Góra").data
        unloadingHeaders unloadingTails) := by
  have h := c2_unloading_multi_city_join eNoSpacy
    ("Miejsce zaladunku\nPL62-090  Rokietnica\n" ++
      "Miejsce rozladunku\n66-008  Świdnica\n65-001  Zielona Góra").data
    ["Świdnica".data, "Zielona Góra".data] (by decide) (by decide) (by decide)
  exact ⟨h.1.trans (by decide), h.2 (by decide)⟩

/-- C7: a line whose digit count exceeds `max 3 (length / 3)` (in
particular, whose digit density exceeds one third of the line length) and on
which no zip pattern matches contributes nothing to the zip-pattern pass of
`_regex_city`: the pass gives the same result with the line removed. -/
theorem c7_dense_line_skipped_in_zip_pass (pre post : List (List Char))
    (ln : List Char)
    (_hdense : (stripWs ln).countP isDigitC > max 3 ((stripWs ln).length / 3))
    (hnomatch : zipMatch (stripWs ln) = none) :
    zipPass (pre ++ ln :: post) = zipPass (pre ++ post) := by
  induction pre with
  | nil =>
    by_cases he : stripWs ln = []
    · simp [zipPass, he]
    · simp [zipPass, he, hnomatch]
  | cons a as ih =>
    by_cases he : stripWs a = []
    · simpa [zipPass, he] using ih
    · rcases hz : zipMatch (stripWs a) with _ | c <;> simp [zipPass, he, hz, ih]

/-- C7 witness: an all-digit line between two others is skipped. -/
theorem c7_dense_line_skipped_in_zip_pass_witness :
    ("1234567890".data.countP isDigitC > max 3 ("1234567890".data.length / 3)) ∧
    zipPass [[], "1234567890".data, "12-345 Abc".data] =
      zipPass [[], "12-345 Abc".data] := by
  refine ⟨by decide, ?_⟩
  exact c7_dense_line_skipped_in_zip_pass [[]] ["12-345 Abc".data]
    "1234567890".data (by decide) (by decide)

/-- C9: model loading is attempted at most once per extractor instance:
after any call to `_ensure_models`, a further call returns the same pipeline
list and leaves the state unchanged regardless of which loader the
environment now provides (so a failed load is never retried), and whenever
spaCy is in use and available the computed list is cached in
`_nlp_pipelines`. -/
theorem c9_models_loaded_at_most_once (e : Extractor)
    (load2 : List Char → Option Pipeline) :
    ensure_models { (ensure_models e).2 with load := load2 } =
      ((ensure_models e).1, { (ensure_models e).2 with load := load2 }) ∧
    (e.use_spacy → e.spacy_available →
      ((ensure_models e).2).nlp_pipelines = some (ensure_models e).1) := by
  constructor
  · by_cases hu : e.use_spacy
    · by_cases ha : e.spacy_available
      · rcases hc : e.nlp_pipelines with _ | ps
        · simp [ensure_models, hu, ha, hc]
        · simp [ensure_models, hu, ha, hc]
      · simp [ensure_models, hu, ha]
    · simp [ensure_models, hu]
  · intro hu ha
    rcases hc : e.nlp_pipelines with _ | ps
    · simp [ensure_models, hu, ha, hc]
    · simp [ensure_models, hu, ha, hc]

/-- C9 witness: on a fresh default extractor with spaCy available, the list
is cached and a second call with a different loader returns it unchanged. -/
theorem c9_models_loaded_at_most_once_witness :
    ensure_models { (ensure_models eTagger).2 with load := fun _ => none } =
      ((ensure_models eTagger).1,
        { (ensure_models eTagger).2 with load := fun _ => none }) ∧
    ((ensure_models eTagger).2).nlp_pipelines = some (ensure_models eTagger).1 := by
  have h := c9_models_loaded_at_most_once eTagger (fun _ => none)
  exact ⟨h.1, h.2 rfl rfl⟩

/-- C10: on the document "Miejsce zaladunku\nPL62-090 na zlec" the located
loading section's zip capture is the annotation text "na zlec", the
Normalizer maps it to the empty string, and `extract_regex_only` returns
this empty string as the resolved loading city (not an absent value). -/
theorem c10_empty_string_surfaces :
    zipMatch "PL62-090 na zlec".data = some "na zlec".data ∧
    clean_city "na zlec".data = [] ∧
    regex_city (extract_section "Miejsce zaladunku\nPL62-090 na zlec".data
      loadingHeaders loadingTails) = some [] ∧
    extract_regex_onlyS "Miejsce zaladunku\nPL62-090 na zlec" =
      (some "", some "Miejsce Zaladunku") := by
  refine ⟨by decide, by decide, by decide, by decide⟩

/-- C3 counterexample: on a document whose located loading and unloading
sections both contain zip-anchored matches, comparison mode reports the
hybrid output different from the regex-only output (the unloading section
has two zip cities, which the hybrid path joins while the regex-only path
returns only the first). -/
theorem c3_counterexample_hybrid_ne_regex :
    zipPass (splitLines (extract_section ("Miejsce zaladunku\nPL62-090  Rokietnica\n" ++
        "Miejsce rozladunku\n66-008  Świdnica\n65-001  Zielona Góra").data
        loadingHeaders loadingTails)) ≠ none ∧
    zipPass (splitLines (extract_section ("Miejsce zaladunku\nPL62-090  Rokietnica\n" ++
        "Miejsce rozladunku\n66-008  Świdnica\n65-001  Zielona Góra").data
        unloadingHeaders unloadingTails)) ≠ none ∧
    (compare_methods eNoSpacy ("Miejsce zaladunku\nPL62-090  Rokietnica\n" ++
        "Miejsce rozladunku\n66-008  Świdnica\n65-001  Zielona Góra").data).hybridR ≠
      (compare_methods eNoSpacy ("Miejsce zaladunku\nPL62-090  Rokietnica\n" ++
        "Miejsce rozladunku\n66-008  Świdnica\n65-001  Zielona Góra").data).regexR := by
  refine ⟨by decide, by decide, by decide⟩

/-- The `_ner_city` gate: a nonempty Pattern-Cascade result is returned
verbatim (or the scorer abstains because no models are in use). -/
theorem ner_city_gate (e : Extractor) (s c : List Char)
    (hrc : regex_city s = some c) (hc : c ≠ []) :
    ner_city e s = some c ∨ ner_city e s = none := by
  by_cases hs : s = []
  · subst hs
    simp [regex_city] at hrc
  · by_cases hu : e.use_spacy
    · by_cases hp : ((ensure_models e).1).isEmpty
      · right; simp [ner_city, hs, hu, hp]
      · left; simp [ner_city, hs, hu, hp, hrc, hc]
    · right; simp [ner_city, hs, hu]

/-- C3 amended: the Entity Scorer path `_ner_city` never overrides a
nonempty Pattern-Cascade result — whenever `_regex_city` on a section is a
nonempty city, `_ner_city` either defers to it or abstains — and comparison
mode reports the hybrid output equal to the regex-only output on every
document whose located loading section has a nonempty cascade city and whose
unloading section's multi-city list is exactly the cascade's single
(nonempty) city. -/
theorem c3_amended_scorer_defers (e : Extractor) (t s c cu : List Char) :
    (regex_city s = some c → c ≠ [] →
      ner_city e s = some c ∨ ner_city e s = none) ∧
    (extract_section t loadingHeaders loadingTails ≠ [] →
      extract_section t unloadingHeaders unloadingTails ≠ [] →
      regex_city (extract_section t loadingHeaders loadingTails) = some c → c ≠ [] →
      extract_cities_list e (extract_section t unloadingHeaders unloadingTails) = [cu] →
      regex_city (extract_section t unloadingHeaders unloadingTails) = some cu →
      cu ≠ [] →
      (compare_methods e t).hybridR = (compare_methods e t).regexR) := by
  refine ⟨ner_city_gate e s c, ?_⟩
  intro hlb hub hrl hc hlst hru hcu
  have h1 : section_loading e t = some c := by
    rcases ner_city_gate e (extract_section t loadingHeaders loadingTails) c hrl hc
      with hn | hn
    · simp [section_loading, hlb, hrl, hn, choose_best, hc]
    · simp [section_loading, hlb, hrl, hn, choose_best, hc]
  have h2 : section_unloading e t = some cu := by
    simp [section_unloading, hub, hlst, joinCh]
  have h1' : section_loading_rx t = some c := by
    simp [section_loading_rx, hlb, hrl]
  have h2' : section_unloading_rx t = some cu := by
    simp [section_unloading_rx, hub, hru]
  simp [compare_methods, extract_from_text, extract_regex_only,
    fillMissing, h1, h2, h1', h2']

/-- C3 amended witness: a one-city loading and one-city unloading document
with zip anchors, on which hybrid and regex-only agree. -/
theorem c3_amended_scorer_defers_witness :
    (ner_city eNoSpacy "PL62-090  Rokietnica".data = some "Rokietnica".data ∨
      ner_city eNoSpacy "PL62-090  Rokietnica".data = none) ∧
    (compare_methods eNoSpacy ("Miejsce zaladunku\nPL62-090  Rokietnica\n" ++
        "Miejsce rozladunku\n66-008  Świdnica").data).hybridR =
      (compare_methods eNoSpacy ("Miejsce zaladunku\nPL62-090  Rokietnica\n" ++
        "Miejsce rozladunku\n66-008  Świdnica").data).regexR := by
  constructor
  · exact (c3_amended_scorer_defers eNoSpacy [] "PL62-090  Rokietnica".data
      "Rokietnica".data []).1 (by decide) (by decide)
  · exact (c3_amended_scorer_defers eNoSpacy
      ("Miejsce zaladunku\nPL62-090  Rokietnica\n" ++
        "Miejsce rozladunku\n66-008  Świdnica").data
      "PL62-090  Rokietnica".data "Rokietnica".data "Świdnica".data).2
      (by decide) (by decide) (by decide) (by decide) (by decide) (by decide)
      (by decide)

/-- C4 counterexample: on a document with no section headers, no zip or
bare-token candidate anywhere, but whose entity tagger reports the location
"Berlin" on the full text, `extract_from_text` returns both fields absent —
it never runs the claimed entity-tagger pass of the document-wide fallback,
so the loading field does not resolve to the tagged candidate. -/
theorem c4_counterexample_no_entity_fallback :
    extract_from_text eTagger "abc def\n123 456".data = (none, none) ∧
    find_global_ner_candidates eTagger "abc def\n123 456".data = ["Berlin".data] := by
  refine ⟨by decide, by decide⟩

/-- C4 amended: the document-wide fallback of `extract_from_text` collects
its candidates through the zip/bare-token scan `_find_global_city_candidates`
only; when the loading (resp. unloading) field is unresolved after
section-based extraction, it receives the first (resp. last) candidate, and
a resolved field is never overwritten. -/
theorem c4_amended_fallback_first_last (e : Extractor) (t : List Char) :
    (section_loading e t = none → find_global_city_candidates t ≠ [] →
      (extract_from_text e t).1 = some ((find_global_city_candidates t).headD [])) ∧
    (section_unloading e t = none → find_global_city_candidates t ≠ [] →
      (extract_from_text e t).2 = some ((find_global_city_candidates t).getLastD [])) ∧
    (∀ c, section_loading e t = some c → (extract_from_text e t).1 = some c) ∧
    (∀ c, section_unloading e t = some c → (extract_from_text e t).2 = some c) := by
  refine ⟨?_, ?_, ?_, ?_⟩
  · intro h hc
    simp [extract_from_text, fillMissing, h, hc]
  · intro h hc
    simp [extract_from_text, fillMissing, h, hc]
  · intro c h
    simp [extract_from_text, fillMissing, h]
  · intro c h
    simp [extract_from_text, fillMissing, h]

/-- C4 amended witness: with no recognizable section headers and two distinct
postal+city occurrences, loading resolves to the first occurrence and
unloading to the last. -/
theorem c4_amended_fallback_first_last_witness :
    (extract_from_text eNoSpacy "12-345 Abc\n54-321 Xyz".data).1 = some "Abc".data ∧
    (extract_from_text eNoSpacy "12-345 Abc\n54-321 Xyz".data).2 = some "Xyz".data := by
  have h := c4_amended_fallback_first_last eNoSpacy "12-345 Abc\n54-321 Xyz".data
  constructor
  · exact (h.1 (by decide) (by decide)).trans (by decide)
  · exact ((h.2.1) (by decide) (by decide)).trans (by decide)

/-- C5: the bare capitalized-token fallback of `_regex_city` is exactly the
street-filtered second pass — when no line of the section produces a
zip-anchored match the result is the fallback pass, a street-indicator line
contributes nothing to that pass (so it is never chosen over a later
non-street line), and whenever the zip pass succeeds anywhere in the section
its capture, not the bare-token pattern, produces the result. -/
theorem c5_bare_token_fallback (sec : List Char) (pre post : List (List Char))
    (ln : List Char) :
    ((∀ l ∈ splitLines sec, zipMatch (stripWs l) = none) →
      regex_city sec = cityPass (splitLines sec)) ∧
    (looks_like_street (stripWs ln) = true →
      cityPass (pre ++ ln :: post) = cityPass (pre ++ post)) ∧
    (∀ c, zipPass (splitLines sec) = some c → regex_city sec = some (clean_city c)) := by
  refine ⟨?_, ?_, ?_⟩
  · intro h
    by_cases hs : sec = []
    · subst hs; simp [regex_city, splitLines, cityPass]
    · have hz := zipPass_eq_none _ h
      simp [regex_city, hs, hz]
  · intro hstreet
    induction pre with
    | nil =>
      by_cases he : stripWs ln = []
      · simp [cityPass, he]
      · simp [cityPass, he, hstreet]
    | cons a as ih =>
      by_cases he : stripWs a = []
      · simpa [cityPass, he] using ih
      · by_cases hst : looks_like_street (stripWs a)
        · simpa [cityPass, he, hst] using ih
        · rcases hm : search_city_only (stripWs a) with _ | c
          · simpa [cityPass, he, hst, hm] using ih
          · simp [cityPass, he, hst, hm]
  · intro c hz
    have hs : sec ≠ [] := by
      intro he
      subst he
      simp [splitLines, zipPass] at hz
    simp [regex_city, hs, hz]

/-- C5 witness: the street line "Hauptstraße 5" is skipped in favour of the
later "Görlitz"; a section with a zip anchor takes its result from the zip
pass. -/
theorem c5_bare_token_fallback_witness :
    (regex_city "Hauptstraße 5\nGörlitz".data =
      cityPass (splitLines "Hauptstraße 5\nGörlitz".data)) ∧
    cityPass ([] ++ "Hauptstraße 5".data :: ["Görlitz".data]) =
      cityPass ([] ++ ["Görlitz".data]) ∧
    regex_city "66-008  Świdnica".data = some (clean_city "Świdnica".data) := by
  refine ⟨?_, ?_, ?_⟩
  · exact (c5_bare_token_fallback "Hauptstraße 5\nGörlitz".data [] [] []).1
      (by decide)
  · exact (c5_bare_token_fallback [] [] ["Görlitz".data] "Hauptstraße 5".data).2.1
      (by decide)
  · exact (c5_bare_token_fallback "66-008  Świdnica".data [] [] []).2.2
      "Świdnica".data (by decide)

/-- C6 counterexample: the raw string "Warszawa NA ZLEC Depot" contains the
annotation marker "na zlec" up to letter case, yet the Normalizer keeps the
marker text instead of truncating: markers are not matched
case-insensitively. -/
theorem c6_counterexample_uppercase_marker_kept :
    hasSubB "na zlec".data ("Warszawa NA ZLEC Depot".data.map lowerChar) = true ∧
    clean_cityS "Warszawa NA ZLEC Depot" = "Warszawa Na Zlec Depot" := by
  refine ⟨by decide, by decide⟩

/-- C8 counterexample: the Normalizer is not idempotent — re-casing
"HAUFTR" produces "Hauftr", which contains the lowercase marker "auftr" and
is truncated to "H" by a second application. -/
theorem c8_counterexample_not_idempotent :
    clean_city (clean_city "HAUFTR".data) ≠ clean_city "HAUFTR".data := by
  decide

/-! ### Substring lemmas for the annotation-marker truncation -/

theorem leadsWith_iff (pat l : List Char) : leadsWith pat l = true ↔ pat <+: l := by
  induction pat generalizing l with
  | nil => simp [leadsWith]
  | cons a as ih =>
    cases l with
    | nil => simp [leadsWith]
    | cons b bs => simp [leadsWith, List.cons_prefix_cons, ih]

theorem cutTok_isPre (pat l : List Char) : cutTok pat l <+: l := by
  induction l with
  | nil => simp [cutTok]
  | cons c t ih =>
    by_cases h : leadsWith pat (c :: t) = true
    · simp [cutTok, h]
    · simp only [cutTok, h, if_false, Bool.not_eq_true] at *
      exact List.cons_prefix_cons.mpr ⟨rfl, ih⟩

theorem hasSubB_of_pre {p l : List Char} (pat : List Char) (hp : p <+: l)
    (h : hasSubB pat p = true) : hasSubB pat l = true := by
  induction p generalizing l with
  | nil =>
    simp [hasSubB] at h
    have : pat = [] := List.prefix_nil.mp ((leadsWith_iff pat []).mp h)
    subst this
    cases l <;> simp [hasSubB, leadsWith]
  | cons a ps ih =>
    rcases l with _ | ⟨b, ls⟩
    · exact absurd (List.prefix_nil.mp hp) (by simp)
    · rcases List.cons_prefix_cons.mp hp with ⟨rfl, hps⟩
      rw [hasSubB] at h
      rcases Bool.or_eq_true_iff.mp h with h1 | h1
      · have : pat <+: a :: ls :=
          ((leadsWith_iff pat (a :: ps)).mp h1).trans
            (List.cons_prefix_cons.mpr ⟨rfl, hps⟩)
        rw [hasSubB]
        exact Bool.or_eq_true_iff.mpr (Or.inl ((leadsWith_iff pat (a :: ls)).mpr this))
      · rw [hasSubB]
        exact Bool.or_eq_true_iff.mpr (Or.inr (ih hps h1))

theorem cutTok_no_sub (a : Char) (as l : List Char) :
    hasSubB (a :: as) (cutTok (a :: as) l) = false := by
  induction l with
  | nil => simp [cutTok, hasSubB, leadsWith]
  | cons c t ih =>
    by_cases h : leadsWith (a :: as) (c :: t) = true
    · have hcut : cutTok (a :: as) (c :: t) = [] := by rw [cutTok, if_pos h]
      rw [hcut]
      simp [hasSubB, leadsWith]
    · rw [cutTok, if_neg h, hasSubB, ih, Bool.or_false]
      cases hb : leadsWith (a :: as) (c :: cutTok (a :: as) t)
      · rfl
      · exact absurd ((leadsWith_iff _ _).mpr
          (((leadsWith_iff _ _).mp hb).trans
            (List.cons_prefix_cons.mpr ⟨rfl, cutTok_isPre _ _⟩))) h

theorem cutTok_len_le (pat l : List Char) : (cutTok pat l).length ≤ l.length :=
  (cutTok_isPre pat l).length_le

theorem cutTok_lt_of_sub (a : Char) (as l : List Char)
    (h : hasSubB (a :: as) l = true) : (cutTok (a :: as) l).length < l.length := by
  induction l with
  | nil => simp [hasSubB, leadsWith] at h
  | cons c t ih =>
    by_cases hl : leadsWith (a :: as) (c :: t) = true
    · simp [cutTok, hl]
    · rw [hasSubB, Bool.or_eq_true_iff] at h
      rcases h with h1 | h1
      · exact absurd h1 hl
      · simpa [cutTok, hl] using ih h1

theorem cutTok_eq_or_lt (pat l : List Char) :
    cutTok pat l = l ∨ (cutTok pat l).length < l.length := by
  rcases eq_or_lt_of_le (cutTok_len_le pat l) with h | h
  · exact Or.inl ((cutTok_isPre pat l).eq_of_length h)
  · exact Or.inr h

theorem cutTok_id_of_no_sub (pat l : List Char) (h : hasSubB pat l = false) :
    cutTok pat l = l := by
  induction l with
  | nil => rfl
  | cons c t ih =>
    rw [hasSubB, Bool.or_eq_false_iff] at h
    rw [cutTok, if_neg (by simp [h.1]), ih h.2]

/-- Unfolding: `cutMarkers` is the sequential cut at the four annotation markers. -/
theorem cutMarkers_def (x : List Char) :
    cutMarkers x =
      cutTok "attn".data (cutTok "auftrag".data
        (cutTok "auftr".data (cutTok "na zlec".data x))) := rfl

theorem cutMarkers_isPre (x : List Char) : cutMarkers x <+: x := by
  rw [cutMarkers_def]
  exact ((cutTok_isPre _ _).trans ((cutTok_isPre _ _).trans
    ((cutTok_isPre _ _).trans (cutTok_isPre _ _))))

theorem cutMarkers_no_marker (x : List Char) :
    ∀ tok ∈ split_tokens, hasSubB tok (cutMarkers x) = false := by
  intro tok htok
  have contra : ∀ y : List Char, cutMarkers x <+: y → hasSubB tok y = false →
      hasSubB tok (cutMarkers x) = false := by
    intro y hy hfy
    cases hb : hasSubB tok (cutMarkers x)
    · rfl
    · exact absurd (hasSubB_of_pre tok hy hb) (by simp [hfy])
  simp only [split_tokens, List.mem_cons, List.not_mem_nil, or_false] at htok
  rcases htok with rfl | rfl | rfl | rfl
  · exact contra (cutTok "na zlec".data x)
      (by rw [cutMarkers_def]
          exact (cutTok_isPre _ _).trans ((cutTok_isPre _ _).trans (cutTok_isPre _ _)))
      (cutTok_no_sub _ _ _)
  · exact contra (cutTok "auftr".data (cutTok "na zlec".data x))
      (by rw [cutMarkers_def]
          exact (cutTok_isPre _ _).trans (cutTok_isPre _ _))
      (cutTok_no_sub _ _ _)
  · exact contra (cutTok "auftrag".data (cutTok "auftr".data (cutTok "na zlec".data x)))
      (by rw [cutMarkers_def]; exact cutTok_isPre _ _)
      (cutTok_no_sub _ _ _)
  · exact contra (cutMarkers x) (List.prefix_rfl)
      (by rw [cutMarkers_def]; exact cutTok_no_sub _ _ _)

theorem cutMarkers_strict (x : List Char) :
    ∀ tok ∈ split_tokens, hasSubB tok x = true →
      (cutMarkers x).length < x.length := by
  intro tok htok hx
  rw [cutMarkers_def]
  simp only [split_tokens, List.mem_cons, List.not_mem_nil, or_false] at htok
  rcases htok with rfl | rfl | rfl | rfl
  · calc (cutTok "attn".data (cutTok "auftrag".data (cutTok "auftr".data
          (cutTok "na zlec".data x)))).length
        ≤ (cutTok "na zlec".data x).length :=
          le_trans (cutTok_len_le _ _) (le_trans (cutTok_len_le _ _) (cutTok_len_le _ _))
      _ < x.length := cutTok_lt_of_sub _ _ _ hx
  · rcases cutTok_eq_or_lt "na zlec".data x with h1 | h1
    · rw [h1]
      calc (cutTok "attn".data (cutTok "auftrag".data (cutTok "auftr".data x))).length
          ≤ (cutTok "auftr".data x).length :=
            le_trans (cutTok_len_le _ _) (cutTok_len_le _ _)
        _ < x.length := cutTok_lt_of_sub _ _ _ hx
    · calc (cutTok "attn".data (cutTok "auftrag".data (cutTok "auftr".data
            (cutTok "na zlec".data x)))).length
          ≤ (cutTok "na zlec".data x).length :=
            le_trans (cutTok_len_le _ _) (le_trans (cutTok_len_le _ _) (cutTok_len_le _ _))
        _ < x.length := h1
  · rcases cutTok_eq_or_lt "na zlec".data x with h1 | h1
    · rw [h1]
      rcases cutTok_eq_or_lt "auftr".data x with h2 | h2
      · rw [h2]
        calc (cutTok "attn".data (cutTok "auftrag".data x)).length
            ≤ (cutTok "auftrag".data x).length := cutTok_len_le _ _
          _ < x.length := cutTok_lt_of_sub _ _ _ hx
      · calc (cutTok "attn".data (cutTok "auftrag".data (cutTok "auftr".data x))).length
            ≤ (cutTok "auftr".data x).length :=
              le_trans (cutTok_len_le _ _) (cutTok_len_le _ _)
          _ < x.length := h2
    · calc (cutTok "attn".data (cutTok "auftrag".data (cutTok "auftr".data
            (cutTok "na zlec".data x)))).length
          ≤ (cutTok "na zlec".data x).length :=
            le_trans (cutTok_len_le _ _) (le_trans (cutTok_len_le _ _) (cutTok_len_le _ _))
        _ < x.length := h1
  · rcases cutTok_eq_or_lt "na zlec".data x with h1 | h1
    · rw [h1]
      rcases cutTok_eq_or_lt "auftr".data x with h2 | h2
      · rw [h2]
        rcases cutTok_eq_or_lt "auftrag".data x with h3 | h3
        · rw [h3]
          exact cutTok_lt_of_sub _ _ _ hx
        · exact lt_of_le_of_lt (cutTok_len_le _ _) h3
      · exact lt_of_le_of_lt
          (le_trans (cutTok_len_le _ _) (cutTok_len_le _ _)) h2
    · exact lt_of_le_of_lt
        (le_trans (cutTok_len_le _ _) (le_trans (cutTok_len_le _ _) (cutTok_len_le _ _))) h1

/-- C6 amended: in the Normalizer, annotation markers are matched
case-SENSITIVELY (exact lowercase substrings, as `str.split` performs):
`_clean_city` factors as postal stripping, then marker truncation, then
separator truncation, then whitespace collapsing, then re-casing — so
truncation happens before collapsing and re-casing — the truncated string
is a prefix of the postal-stripped input containing no marker, and whenever
a lowercase marker occurs in the postal-stripped input the truncation is
strict. -/
theorem c6_amended_markers_case_sensitive (s : List Char) :
    clean_city s =
      smartTitle (collapseWs (cutSeps (cutMarkers (subZipBare (subZipPrefixed s))))) ∧
    cutMarkers (subZipBare (subZipPrefixed s)) <+: subZipBare (subZipPrefixed s) ∧
    (∀ tok ∈ split_tokens,
      hasSubB tok (cutMarkers (subZipBare (subZipPrefixed s))) = false) ∧
    (∀ tok ∈ split_tokens, hasSubB tok (subZipBare (subZipPrefixed s)) = true →
      (cutMarkers (subZipBare (subZipPrefixed s))).length <
        (subZipBare (subZipPrefixed s)).length) :=
  ⟨rfl, cutMarkers_isPre _, cutMarkers_no_marker _, cutMarkers_strict _⟩

/-- C6 amended witness: "Rokietnica na zlec X" is truncated at the exact
lowercase marker before collapsing and re-casing. -/
theorem c6_amended_markers_case_sensitive_witness :
    hasSubB "na zlec".data
      (cutMarkers (subZipBare (subZipPrefixed "Rokietnica na zlec X".data))) = false ∧
    (cutMarkers (subZipBare (subZipPrefixed "Rokietnica na zlec X".data))).length <
      (subZipBare (subZipPrefixed "Rokietnica na zlec X".data)).length := by
  have h := c6_amended_markers_case_sensitive "Rokietnica na zlec X".data
  exact ⟨h.2.2.1 "na zlec".data (by decide),
    h.2.2.2 "na zlec".data (by decide) (by decide)⟩

/-! ### Case-table lemmas (towards Normalizer idempotence) -/

theorem caseTable_fst_ne_snd :
    caseTable.all (fun p => caseTable.all (fun q => !(decide (q.1 = p.2)))) = true := by
  decide

theorem caseTable_snd_ne_fst :
    caseTable.all (fun p => caseTable.all (fun q => !(decide (q.2 = p.1)))) = true := by
  decide

theorem lowerChar_cases (c : Char) :
    lowerChar c = c ∨ ∃ p ∈ caseTable, lowerChar c = p.2 := by
  rcases h : caseTable.find? (fun p => p.1 = c) with _ | p
  · left; simp [lowerChar, h]
  · right
    exact ⟨p, List.mem_of_find?_eq_some h, by simp [lowerChar, h]⟩

theorem upperChar_cases (c : Char) :
    upperChar c = c ∨ ∃ p ∈ caseTable, upperChar c = p.1 := by
  rcases h : caseTable.find? (fun p => p.2 = c) with _ | p
  · left; simp [upperChar, h]
  · right
    exact ⟨p, List.mem_of_find?_eq_some h, by simp [upperChar, h]⟩

theorem lowerChar_idem (c : Char) : lowerChar (lowerChar c) = lowerChar c := by
  rcases h : caseTable.find? (fun p => p.1 = c) with _ | p
  · simp [lowerChar, h]
  · have hp := List.mem_of_find?_eq_some h
    have hnone : caseTable.find? (fun q => q.1 = p.2) = none := by
      rw [List.find?_eq_none]
      intro q hq
      have h1 := List.all_eq_true.mp caseTable_fst_ne_snd p hp
      have h2 := List.all_eq_true.mp h1 q hq
      simpa using h2
    have hv : lowerChar c = p.2 := by simp [lowerChar, h]
    rw [hv]
    simp [lowerChar, hnone]

theorem upperChar_idem (c : Char) : upperChar (upperChar c) = upperChar c := by
  rcases h : caseTable.find? (fun p => p.2 = c) with _ | p
  · simp [upperChar, h]
  · have hp := List.mem_of_find?_eq_some h
    have hnone : caseTable.find? (fun q => q.2 = p.1) = none := by
      rw [List.find?_eq_none]
      intro q hq
      have h1 := List.all_eq_true.mp caseTable_snd_ne_fst p hp
      have h2 := List.all_eq_true.mp h1 q hq
      simpa using h2
    have hv : upperChar c = p.1 := by simp [upperChar, h]
    rw [hv]
    simp [upperChar, hnone]

theorem upperChar_ne_eszett (c : Char) : upperChar c ≠ 'ß' := by
  rcases upperChar_cases c with h | ⟨p, hp, h⟩
  · rw [h]
    intro hc
    subst hc
    have : caseTable.find? (fun p => p.2 = 'ß') = some ('ẞ', 'ß') := by decide
    simp [upperChar, this] at h
  · rw [h]
    have : caseTable.all (fun p => !(decide (p.1 = 'ß'))) = true := by decide
    have := List.all_eq_true.mp this p hp
    simpa using this

theorem lowerChar_map_idem (t : List Char) :
    (t.map lowerChar).map lowerChar = t.map lowerChar := by
  rw [List.map_map]
  exact List.map_congr_left (fun c _ => lowerChar_idem c)

/-- Characters introduced by case mapping: preservation of a property that
holds on the whole case table and on the target character. -/
theorem lowerChar_pres (G : Char → Prop)
    (htbl : ∀ p ∈ caseTable, G p.1 ∧ G p.2) (c : Char) (hc : G c) :
    G (lowerChar c) := by
  rcases lowerChar_cases c with h | ⟨p, hp, h⟩
  · rwa [h]
  · rw [h]; exact (htbl p hp).2

theorem upperChar_pres (G : Char → Prop)
    (htbl : ∀ p ∈ caseTable, G p.1 ∧ G p.2) (c : Char) (hc : G c) :
    G (upperChar c) := by
  rcases upperChar_cases c with h | ⟨p, hp, h⟩
  · rwa [h]
  · rw [h]; exact (htbl p hp).1

theorem titleChar_pres (G : Char → Prop)
    (htbl : ∀ p ∈ caseTable, G p.1 ∧ G p.2) (hS : G 'S' ∧ G 's')
    (c : Char) (hc : G c) : ∀ x ∈ titleChar c, G x := by
  intro x hx
  by_cases heq : c = 'ß'
  · simp [titleChar, heq] at hx
    rcases hx with rfl | rfl
    · exact hS.1
    · exact hS.2
  · simp [titleChar, heq] at hx
    subst hx
    exact upperChar_pres G htbl c hc

/-! ### Word-capitalization lemmas -/

theorem titleChar_ne_nil (c : Char) : titleChar c ≠ [] := by
  unfold titleChar
  split <;> simp

theorem capFirst_idem (w : List Char) : capFirst (capFirst w) = capFirst w := by
  cases w with
  | nil => rfl
  | cons c t =>
    by_cases hc : c = 'ß'
    · subst hc
      have h1 : capFirst ('ß' :: t) = 'S' :: 's' :: t.map lowerChar := by
        rw [capFirst]; simp [titleChar]
      rw [h1, capFirst]
      have h2 : titleChar 'S' = ['S'] := by decide
      rw [h2]
      simp only [List.map_cons, show lowerChar 's' = 's' from by decide,
        lowerChar_map_idem, List.map_map]
      refine congrArg _ (congrArg _ (List.map_congr_left fun a _ => lowerChar_idem a))
    · have ht : titleChar c = [upperChar c] := by simp [titleChar, hc]
      have h1 : capFirst (c :: t) = upperChar c :: t.map lowerChar := by
        rw [capFirst, ht]; rfl
      rw [h1, capFirst]
      have ht2 : titleChar (upperChar c) = [upperChar (upperChar c)] := by
        simp [titleChar, upperChar_ne_eszett c]
      rw [ht2, upperChar_idem, lowerChar_map_idem]
      rfl

theorem getLastD_concat2 (x : List Char) (a d : Char) :
    (x ++ [a]).getLastD d = a := by
  induction x generalizing d with
  | nil => rfl
  | cons c t ih =>
    rw [List.cons_append, List.getLastD_cons]
    exact ih c

theorem getLastD_irrel (t : List Char) (a b : Char) (ht : t ≠ []) :
    t.getLastD a = t.getLastD b := by
  cases t with
  | nil => exact absurd rfl ht
  | cons c r => rw [List.getLastD_cons, List.getLastD_cons]

theorem getLastD_append_ne (x y : List Char) (d : Char) (hy : y ≠ []) :
    (x ++ y).getLastD d = y.getLastD d := by
  induction x generalizing d with
  | nil => rfl
  | cons c t ih =>
    have hne : t ++ y ≠ [] := by simp [hy]
    calc ((c :: t) ++ y).getLastD d = (t ++ y).getLastD c := by
          rw [List.cons_append, List.getLastD_cons]
      _ = (t ++ y).getLastD d := getLastD_irrel _ c d hne
      _ = y.getLastD d := ih d

theorem getLastD_map (f : Char → Char) (t : List Char) (d : Char) (ht : t ≠ []) :
    (t.map f).getLastD d = f (t.getLastD d) := by
  induction t generalizing d with
  | nil => exact absurd rfl ht
  | cons c r ih =>
    cases r with
    | nil => rfl
    | cons e s =>
      have h1 : ((c :: e :: s).map f).getLastD d = ((e :: s).map f).getLastD (f c) := by
        rw [List.map_cons, List.getLastD_cons]
      have h2 : (c :: e :: s).getLastD d = (e :: s).getLastD c := by
        rw [List.getLastD_cons]
      rw [h1, h2, ih (f c) (by simp)]
      exact congrArg f (getLastD_irrel _ _ _ (by simp))

theorem lowerChar_ne_dot (x : Char) (hx : x ≠ '.') : lowerChar x ≠ '.' := by
  have := lowerChar_pres (fun c => c ≠ '.') ?_ x hx
  · exact this
  · intro p hp
    have h1 : caseTable.all
        (fun p => !(decide (p.1 = '.')) && !(decide (p.2 = '.'))) = true := by decide
    have := List.all_eq_true.mp h1 p hp
    simp at this
    exact ⟨this.1, this.2⟩

theorem upperChar_ne_dot (x : Char) (hx : x ≠ '.') : upperChar x ≠ '.' := by
  have := upperChar_pres (fun c => c ≠ '.') ?_ x hx
  · exact this
  · intro p hp
    have h1 : caseTable.all
        (fun p => !(decide (p.1 = '.')) && !(decide (p.2 = '.'))) = true := by decide
    have := List.all_eq_true.mp h1 p hp
    simp at this
    exact ⟨this.1, this.2⟩

theorem capFirst_getLastD_ne_dot (w : List Char) (hw : w.getLastD ' ' ≠ '.') :
    (capFirst w).getLastD ' ' ≠ '.' := by
  cases w with
  | nil => simp [capFirst, List.getLastD]
  | cons c t =>
    rw [capFirst]
    cases t with
    | nil =>
      simp only [List.map_nil, List.append_nil]
      by_cases hc : c = 'ß'
      · subst hc; decide
      · have ht : titleChar c = [upperChar c] := by simp [titleChar, hc]
        rw [ht]
        have hcd : c ≠ '.' := by
          rw [List.getLastD_cons] at hw
          simpa using hw
        rw [show ([upperChar c].getLastD ' ') = upperChar c from rfl]
        exact upperChar_ne_dot c hcd
    | cons e s =>
      have hm : (e :: s).map lowerChar ≠ [] := by simp
      rw [getLastD_append_ne _ _ _ hm, getLastD_map _ _ _ (by simp)]
      have hts : (e :: s).getLastD ' ' ≠ '.' := by
        have heq : (c :: e :: s).getLastD ' ' = (e :: s).getLastD ' ' := by
          rw [List.getLastD_cons]
          exact getLastD_irrel _ _ _ (by simp)
        rwa [heq] at hw
      exact lowerChar_ne_dot _ hts

theorem capWord_idem (w : List Char) : capWord (capWord w) = capWord w := by
  by_cases hd : w.getLastD ' ' = '.'
  · have h1 : capWord w = capFirst w.dropLast ++ ['.'] := by
      rw [capWord, if_pos hd]
    rw [h1, capWord, if_pos (getLastD_concat2 _ _ _), List.dropLast_concat,
      capFirst_idem]
  · have h1 : capWord w = capFirst w := by
      rw [capWord, if_neg hd]
    rw [h1, capWord, if_neg (capFirst_getLastD_ne_dot w hd), capFirst_idem]

theorem capFirst_mem {w : List Char} {x : Char} (hx : x ∈ capFirst w) :
    (∃ c ∈ w, x ∈ titleChar c) ∨ (∃ c ∈ w, x = lowerChar c) := by
  cases w with
  | nil => simp [capFirst] at hx
  | cons c t =>
    rw [capFirst] at hx
    rcases List.mem_append.mp hx with h | h
    · exact Or.inl ⟨c, by simp, h⟩
    · rcases List.mem_map.mp h with ⟨y, hy, rfl⟩
      exact Or.inr ⟨y, by simp [hy], rfl⟩

theorem capWord_mem {w : List Char} {x : Char} (hx : x ∈ capWord w) :
    x = '.' ∨ (∃ c ∈ w, x ∈ titleChar c) ∨ (∃ c ∈ w, x = lowerChar c) := by
  rw [capWord] at hx
  split at hx
  · rcases List.mem_append.mp hx with h | h
    · rcases capFirst_mem h with ⟨c, hc, hxc⟩ | ⟨c, hc, rfl⟩
      · exact Or.inr (Or.inl ⟨c, List.dropLast_sublist w |>.subset hc, hxc⟩)
      · exact Or.inr (Or.inr ⟨c, List.dropLast_sublist w |>.subset hc, rfl⟩)
    · simp at h
      exact Or.inl h
  · rcases capFirst_mem hx with h | h
    · exact Or.inr (Or.inl h)
    · exact Or.inr (Or.inr h)

/-- Property preservation through `capWord`, for any predicate that holds on
the case table, on 'S', 's' and '.'. -/
theorem capWord_pres (G : Char → Prop)
    (htbl : ∀ p ∈ caseTable, G p.1 ∧ G p.2) (hS : G 'S' ∧ G 's') (hdot : G '.')
    {w : List Char} (hw : ∀ c ∈ w, G c) : ∀ x ∈ capWord w, G x := by
  intro x hx
  rcases capWord_mem hx with rfl | ⟨c, hc, hxc⟩ | ⟨c, hc, rfl⟩
  · exact hdot
  · exact titleChar_pres G htbl hS c (hw c hc) x hxc
  · exact lowerChar_pres G htbl c (hw c hc)

theorem capWord_ne_nil {w : List Char} (hw : w ≠ []) : capWord w ≠ [] := by
  rw [capWord]
  split
  · simp
  · cases w with
    | nil => exact absurd rfl hw
    | cons c t =>
      rw [capFirst]
      simp [titleChar_ne_nil c]

/-! ### Whitespace-collapse normal form: words, joins, splits -/

theorem lstrip_cons_ws {a : Char} (x : List Char) (ha : isWsC a = true) :
    lstripWs (a :: x) = lstripWs x := by
  simp [lstripWs, List.dropWhile_cons, ha]

theorem lstrip_cons_nws {a : Char} (x : List Char) (ha : isWsC a = false) :
    lstripWs (a :: x) = a :: x := by
  simp [lstripWs, List.dropWhile_cons, ha]

theorem rstrip_cons (a : Char) (x : List Char) :
    rstripWs (a :: x) =
      if rstripWs x = [] then rstripWs [a] else a :: rstripWs x := by
  have h : (a :: x).reverse = x.reverse ++ [a] := by simp
  rw [rstripWs, h, List.dropWhile_append]
  by_cases he : x.reverse.dropWhile isWsC = []
  · simp [he, rstripWs]
  · have hne : rstripWs x ≠ [] := by
      rw [rstripWs, ne_eq, List.reverse_eq_nil_iff]
      exact he
    simp [he, hne, rstripWs]

theorem rstrip_eq_nil_iff (x : List Char) :
    rstripWs x = [] ↔ ∀ c ∈ x, isWsC c = true := by
  rw [rstripWs]
  simp [List.dropWhile_eq_nil_iff]

theorem rstrip_cons_ne (a : Char) (x : List Char) (hx : rstripWs x ≠ []) :
    rstripWs (a :: x) = a :: rstripWs x := by
  rw [rstrip_cons, if_neg hx]

theorem rstrip_wsfree (x : List Char) (h : ∀ c ∈ x, isWsC c = false) :
    rstripWs x = x := by
  induction x with
  | nil => rfl
  | cons c t ih =>
    have ht := ih (fun y hy => h y (by simp [hy]))
    cases t with
    | nil =>
      have := h c (by simp)
      simp [rstripWs, List.dropWhile_cons, this]
    | cons d ts =>
      rw [rstrip_cons, ht, if_neg (by simp)]

theorem rstrip_append_ne (x y : List Char) (hy : rstripWs y ≠ []) :
    rstripWs (x ++ y) = x ++ rstripWs y := by
  induction x with
  | nil => simp
  | cons c t ih =>
    have hne : rstripWs (t ++ y) ≠ [] := by
      rw [ih]
      intro hc
      exact hy (by simpa using (List.append_eq_nil.mp hc).2)
    rw [List.cons_append, rstrip_cons_ne c _ hne, ih]
    rfl

theorem squeezeAux_true_eq (l : List Char) :
    squeezeAux true l = squeezeAux false (l.dropWhile isWsC) := by
  induction l with
  | nil => rfl
  | cons c t ih =>
    by_cases hc : isWsC c = true
    · simp [squeezeAux, hc, List.dropWhile_cons, ih]
    · simp at hc
      simp [squeezeAux, hc, List.dropWhile_cons]

theorem squeezeAux_true_head_nws (l : List Char) (c : Char) (t : List Char)
    (hl : l = c :: t) (hc : isWsC c = false) :
    squeezeAux true l = squeezeAux false l := by
  subst hl
  simp [squeezeAux, hc]

theorem lstrip_squeezeAux_true (l : List Char) :
    lstripWs (squeezeAux true l) = squeezeAux true l := by
  induction l with
  | nil => rfl
  | cons c t ih =>
    by_cases hc : isWsC c = true
    · simpa [squeezeAux, hc] using ih
    · simp at hc
      simp [squeezeAux, hc, lstrip_cons_nws _ hc]

theorem squeeze_wsfree_append (w r : List Char) (hw : ∀ c ∈ w, isWsC c = false) :
    squeezeAux false (w ++ r) = w ++ squeezeAux false r := by
  induction w with
  | nil => rfl
  | cons c t ih =>
    have hc := hw c (by simp)
    simp [squeezeAux, hc, ih (fun y hy => hw y (by simp [hy]))]

theorem wordsOf_props (l : List Char) :
    ∀ w ∈ wordsOf l, w ≠ [] ∧ ∀ c ∈ w, isWsC c = false := by
  induction l with
  | nil => simp [wordsOf]
  | cons c t ih =>
    cases t with
    | nil =>
      by_cases hc : isWsC c = true
      · simp [wordsOf, hc]
      · simp at hc
        simp [wordsOf, hc]
    | cons d ts =>
      by_cases hc : isWsC c = true
      · simpa [wordsOf, hc] using ih
      · simp at hc
        by_cases hd : isWsC d = true
        · intro w hw
          rw [wordsOf] at hw
          simp [hc, hd] at hw
          rcases hw with rfl | hw
          · exact ⟨by simp, by simp [hc]⟩
          · exact ih w hw
        · simp at hd
          intro w hw
          rw [wordsOf] at hw
          simp [hc, hd] at hw
          rcases hm : wordsOf (d :: ts) with _ | ⟨w0, ws0⟩
          · rw [hm] at hw
            simp at hw
            subst hw
            exact ⟨by simp, by simp [hc]⟩
          · rw [hm] at hw
            simp at hw
            rcases hw with rfl | hw
            · have h0 := ih w0 (by rw [hm]; simp)
              exact ⟨by simp, by
                intro x hx
                rcases List.mem_cons.mp hx with rfl | hx
                · exact hc
                · exact h0.2 x hx⟩
            · exact ih w (by rw [hm]; simp [hw])

theorem wordsOf_cons_nws (c : Char) (t : List Char) (hc : isWsC c = false) :
    wordsOf (c :: t) ≠ [] := by
  cases t with
  | nil => simp [wordsOf, hc]
  | cons d ts =>
    rw [wordsOf]
    simp only [hc]
    by_cases hd : isWsC d = true
    · simp [hd]
    · simp at hd
      simp only [hd]
      rcases hm : wordsOf (d :: ts) with _ | ⟨w0, ws0⟩ <;> simp

theorem joinCh_ne_nil (w : List Char) (ws : List (List Char)) (hw : w ≠ []) :
    joinCh ' ' (w :: ws) ≠ [] := by
  cases ws with
  | nil => simpa [joinCh] using hw
  | cons w' ws' => simp [joinCh]

theorem joinCh_cons_head (c : Char) (w : List Char) (ws : List (List Char)) :
    joinCh ' ' ((c :: w) :: ws) = c :: joinCh ' ' (w :: ws) := by
  cases ws with
  | nil => rfl
  | cons w' ws' => rfl

theorem joinCh_cons_cons (sep : Char) (w w2 : List Char) (ws2 : List (List Char)) :
    joinCh sep (w :: w2 :: ws2) = w ++ sep :: joinCh sep (w2 :: ws2) := rfl

/-- Normal form: `collapseWs` joins the whitespace-separated words with single spaces. -/
theorem collapse_eq_joinWords (l : List Char) :
    collapseWs l = joinCh ' ' (wordsOf l) := by
  induction l with
  | nil => rfl
  | cons c t ih =>
    cases t with
    | nil =>
      by_cases hc : isWsC c = true
      · simp [collapseWs, squeezeWs, squeezeAux, hc, wordsOf, joinCh]
        decide
      · simp at hc
        simp [collapseWs, squeezeWs, squeezeAux, hc, wordsOf, joinCh, stripWs,
          lstrip_cons_nws _ hc]
        simp [rstripWs, List.dropWhile_cons, hc]
    | cons d ts =>
      by_cases hc : isWsC c = true
      · -- leading whitespace: both sides ignore the first character
        have hcol : collapseWs (c :: d :: ts) = collapseWs (d :: ts) := by
          by_cases hd : isWsC d = true
          · have e1 : squeezeWs (c :: d :: ts) = ' ' :: squeezeAux true ts := by
              simp [squeezeWs, squeezeAux, hc, hd]
            have e2 : squeezeWs (d :: ts) = ' ' :: squeezeAux true ts := by
              simp [squeezeWs, squeezeAux, hd]
            rw [collapseWs, collapseWs, e1, e2]
          · simp at hd
            have e1 : squeezeWs (c :: d :: ts) = ' ' :: squeezeAux false (d :: ts) := by
              simp [squeezeWs, squeezeAux, hc, hd]
            have e2 : squeezeWs (d :: ts) = squeezeAux false (d :: ts) := rfl
            rw [collapseWs, collapseWs, e1, e2, stripWs, stripWs,
              lstrip_cons_ws _ (by decide)]
        have hwd : wordsOf (c :: d :: ts) = wordsOf (d :: ts) := by
          rw [wordsOf]; simp [hc]
        rw [hcol, hwd, ih]
      · simp at hc
        by_cases hd : isWsC d = true
        · -- the first word is the single character `c`
          have e1 : squeezeWs (c :: d :: ts) = c :: ' ' :: squeezeAux true ts := by
            simp [squeezeWs, squeezeAux, hc, hd]
          have e2 : collapseWs (d :: ts) = rstripWs (squeezeAux true ts) := by
            have h1 : squeezeWs (d :: ts) = ' ' :: squeezeAux true ts := by
              simp [squeezeWs, squeezeAux, hd]
            rw [collapseWs, h1, stripWs, lstrip_cons_ws _ (by decide),
              lstrip_squeezeAux_true ts]
          have hwd : wordsOf (c :: d :: ts) = [c] :: wordsOf (d :: ts) := by
            rw [wordsOf]; simp [hc, hd]
          have hJ : rstripWs (squeezeAux true ts) = joinCh ' ' (wordsOf (d :: ts)) := by
            rw [← e2, ih]
          have e3 : collapseWs (c :: d :: ts) =
              rstripWs (c :: ' ' :: squeezeAux true ts) := by
            rw [collapseWs, e1, stripWs, lstrip_cons_nws _ hc]
          rw [e3, hwd]
          rcases hm : wordsOf (d :: ts) with _ | ⟨w0, ws0⟩
          · have hX : rstripWs (squeezeAux true ts) = [] := by
              rw [hJ, hm]; rfl
            rw [rstrip_cons, rstrip_cons, hX, if_pos rfl]
            rw [if_pos (by decide : rstripWs [' '] = [])]
            simp [rstripWs, List.dropWhile_cons, hc, joinCh]
          · have hw0 : w0 ≠ [] := (wordsOf_props (d :: ts) w0 (by rw [hm]; simp)).1
            have hJne : rstripWs (squeezeAux true ts) ≠ [] := by
              rw [hJ, hm]
              exact joinCh_ne_nil w0 ws0 hw0
            rw [rstrip_cons_ne _ _ (by rw [rstrip_cons_ne _ _ hJne]; simp),
              rstrip_cons_ne _ _ hJne, hJ, hm]
            rfl
        · simp at hd
          rcases hm : wordsOf (d :: ts) with _ | ⟨w0, ws0⟩
          · exact absurd hm (wordsOf_cons_nws d ts hd)
          · have hw0 : w0 ≠ [] := (wordsOf_props (d :: ts) w0 (by rw [hm]; simp)).1
            have e1 : squeezeWs (c :: d :: ts) = c :: squeezeAux false (d :: ts) := by
              simp [squeezeWs, squeezeAux, hc]
            have e2 : collapseWs (d :: ts) = rstripWs (squeezeAux false (d :: ts)) := by
              rw [collapseWs, stripWs]
              have h1 : squeezeWs (d :: ts) = d :: squeezeAux false ts := by
                simp [squeezeWs, squeezeAux, hd]
              rw [h1, lstrip_cons_nws _ hd, ← h1]
              rfl
            have hJ : rstripWs (squeezeAux false (d :: ts)) =
                joinCh ' ' (w0 :: ws0) := by
              rw [← e2, ih, hm]
            have hJne : rstripWs (squeezeAux false (d :: ts)) ≠ [] := by
              rw [hJ]
              exact joinCh_ne_nil w0 ws0 hw0
            have hwd : wordsOf (c :: d :: ts) = (c :: w0) :: ws0 := by
              rw [wordsOf]
              simp [hc, hd, hm]
            rw [collapseWs, e1, stripWs, lstrip_cons_nws _ hc,
              rstrip_cons_ne _ _ hJne, hJ, hwd, joinCh_cons_head]

theorem splitCh_nosep (sep : Char) (w : List Char) (hw : sep ∉ w) :
    splitCh sep w = [w] := by
  induction w with
  | nil => rfl
  | cons c t ih =>
    have hc : ¬ c = sep := fun h => hw (by simp [h])
    have ht : sep ∉ t := fun h => hw (by simp [h])
    rw [splitCh, if_neg hc, ih ht]

theorem splitCh_word_prepend (sep : Char) (w r : List Char) (hw : sep ∉ w) :
    splitCh sep (w ++ sep :: r) = w :: splitCh sep r := by
  induction w with
  | nil => simp [splitCh]
  | cons c t ih =>
    have hc : ¬ c = sep := fun h => hw (by simp [h])
    rw [List.cons_append, splitCh, if_neg hc, ih (fun h => hw (by simp [h]))]

theorem splitCh_join (sep : Char) (ws : List (List Char))
    (h : ∀ w ∈ ws, sep ∉ w) (hne : ws ≠ []) :
    splitCh sep (joinCh sep ws) = ws := by
  induction ws with
  | nil => exact absurd rfl hne
  | cons w ws' ih =>
    cases ws' with
    | nil => simpa [joinCh] using splitCh_nosep sep w (h w (by simp))
    | cons w2 ws2 =>
      rw [joinCh_cons_cons, splitCh_word_prepend sep w _ (h w (by simp)),
        ih (fun x hx => h x (by simp [hx])) (by simp)]

theorem squeeze_join (ws : List (List Char))
    (h : ∀ w ∈ ws, w ≠ [] ∧ ∀ c ∈ w, isWsC c = false) :
    squeezeAux false (joinCh ' ' ws) = joinCh ' ' ws := by
  induction ws with
  | nil => rfl
  | cons w ws' ih =>
    cases ws' with
    | nil =>
      have := squeeze_wsfree_append w [] (fun c hc => (h w (by simp)).2 c hc)
      simpa [joinCh, squeezeAux] using this
    | cons w2 ws2 =>
      rw [joinCh_cons_cons, squeeze_wsfree_append w _ (fun c hc => (h w (by simp)).2 c hc)]
      congr 1
      have hw2 := h w2 (by simp)
      rcases hw2eq : w2 with _ | ⟨a, u⟩
      · exact absurd rfl (hw2eq ▸ hw2).1
      · have ha : isWsC a = false := (hw2eq ▸ hw2).2 a (by simp)
        have e1 : squeezeAux false (' ' :: joinCh ' ' ((a :: u) :: ws2)) =
            ' ' :: squeezeAux true (joinCh ' ' ((a :: u) :: ws2)) := rfl
        rw [e1]
        congr 1
        rw [squeezeAux_true_head_nws _ a (joinCh ' ' (u :: ws2))
          (joinCh_cons_head a u ws2) ha]
        exact hw2eq ▸ ih (fun x hx => h x (by simp [hx]))

theorem lstrip_join (ws : List (List Char))
    (h : ∀ w ∈ ws, w ≠ [] ∧ ∀ c ∈ w, isWsC c = false) :
    lstripWs (joinCh ' ' ws) = joinCh ' ' ws := by
  cases ws with
  | nil => rfl
  | cons w ws' =>
    have hw := h w (by simp)
    rcases hweq : w with _ | ⟨a, u⟩
    · exact absurd rfl (hweq ▸ hw).1
    · have ha : isWsC a = false := (hweq ▸ hw).2 a (by simp)
      rw [joinCh_cons_head, lstrip_cons_nws _ ha]

theorem rstrip_join (ws : List (List Char))
    (h : ∀ w ∈ ws, w ≠ [] ∧ ∀ c ∈ w, isWsC c = false) :
    rstripWs (joinCh ' ' ws) = joinCh ' ' ws := by
  induction ws with
  | nil => rfl
  | cons w ws' ih =>
    cases ws' with
    | nil =>
      simpa [joinCh] using rstrip_wsfree w (fun c hc => (h w (by simp)).2 c hc)
    | cons w2 ws2 =>
      have hJ : rstripWs (joinCh ' ' (w2 :: ws2)) = joinCh ' ' (w2 :: ws2) :=
        ih (fun x hx => h x (by simp [hx]))
      have hne : rstripWs (joinCh ' ' (w2 :: ws2)) ≠ [] := by
        rw [hJ]
        exact joinCh_ne_nil w2 ws2 (h w2 (by simp)).1
      rw [joinCh_cons_cons, rstrip_append_ne _ _ (by rw [rstrip_cons_ne _ _ hne]; simp),
        rstrip_cons_ne _ _ hne, hJ]

theorem collapse_join (ws : List (List Char))
    (h : ∀ w ∈ ws, w ≠ [] ∧ ∀ c ∈ w, isWsC c = false) :
    collapseWs (joinCh ' ' ws) = joinCh ' ' ws := by
  rw [collapseWs, squeezeWs, squeeze_join ws h, stripWs, lstrip_join ws h,
    rstrip_join ws h]

theorem smartTitle_join (ws : List (List Char))
    (h : ∀ w ∈ ws, w ≠ [] ∧ ∀ c ∈ w, isWsC c = false) (hne : ws ≠ []) :
    smartTitle (joinCh ' ' ws) = joinCh ' ' (ws.map capWord) := by
  rw [smartTitle, splitCh_join ' ' ws ?_ hne]
  intro w hw hmem
  have := (h w hw).2 ' ' hmem
  simp [isWsC] at this

/-! ### Membership through the Normalizer's stages -/

theorem mem_squeezeAux {x : Char} (b : Bool) (l : List Char)
    (hx : x ∈ squeezeAux b l) : x = ' ' ∨ x ∈ l := by
  induction l generalizing b with
  | nil => simp [squeezeAux] at hx
  | cons c t ih =>
    rw [squeezeAux] at hx
    by_cases hc : isWsC c = true
    · rw [if_pos hc] at hx
      cases b with
      | true =>
        rcases ih true hx with h | h
        · exact Or.inl h
        · exact Or.inr (by simp [h])
      | false =>
        rcases List.mem_cons.mp hx with rfl | hx2
        · exact Or.inl rfl
        · rcases ih true hx2 with h | h
          · exact Or.inl h
          · exact Or.inr (by simp [h])
    · rw [if_neg hc] at hx
      rcases List.mem_cons.mp hx with rfl | hx2
      · exact Or.inr (by simp)
      · rcases ih false hx2 with h | h
        · exact Or.inl h
        · exact Or.inr (by simp [h])

theorem mem_rstrip {x : Char} {l : List Char} (hx : x ∈ rstripWs l) : x ∈ l := by
  rw [rstripWs] at hx
  rw [List.mem_reverse] at hx
  have := (List.dropWhile_suffix (l := l.reverse) (p := isWsC)).sublist.subset hx
  simpa using this

theorem mem_stripWs {x : Char} {l : List Char} (hx : x ∈ stripWs l) : x ∈ l := by
  rw [stripWs] at hx
  have h1 := mem_rstrip hx
  rw [lstripWs] at h1
  exact (List.dropWhile_suffix (p := isWsC)).sublist.subset h1

theorem mem_collapseWs {x : Char} {l : List Char} (hx : x ∈ collapseWs l) :
    x = ' ' ∨ x ∈ l := by
  rw [collapseWs] at hx
  exact mem_squeezeAux false l (mem_stripWs hx)

theorem mem_joinCh {x sep : Char} {ws : List (List Char)}
    (hx : x ∈ joinCh sep ws) : x = sep ∨ ∃ w ∈ ws, x ∈ w := by
  induction ws with
  | nil => simp [joinCh] at hx
  | cons w ws' ih =>
    cases ws' with
    | nil => exact Or.inr ⟨w, by simp, by simpa [joinCh] using hx⟩
    | cons w2 ws2 =>
      rw [joinCh_cons_cons] at hx
      rcases List.mem_append.mp hx with h | h
      · exact Or.inr ⟨w, by simp, h⟩
      · rcases List.mem_cons.mp h with rfl | h2
        · exact Or.inl rfl
        · rcases ih h2 with h3 | ⟨w3, hw3, hxw3⟩
          · exact Or.inl h3
          · exact Or.inr ⟨w3, by simp [hw3], hxw3⟩

theorem splitCh_ne_nil (sep : Char) (l : List Char) : splitCh sep l ≠ [] := by
  induction l with
  | nil => simp [splitCh]
  | cons c t ih =>
    rw [splitCh]
    by_cases hc : c = sep
    · simp [hc]
    · rcases hsp : splitCh sep t with _ | ⟨h0, r⟩
      · exact absurd hsp ih
      · simp [hc, hsp]

theorem mem_splitCh {x sep : Char} {w l : List Char}
    (hw : w ∈ splitCh sep l) (hx : x ∈ w) : x ∈ l := by
  induction l generalizing w with
  | nil =>
    simp [splitCh] at hw
    subst hw
    simp at hx
  | cons c t ih =>
    rw [splitCh] at hw
    by_cases hc : c = sep
    · rw [if_pos hc] at hw
      rcases List.mem_cons.mp hw with rfl | hw2
      · simp at hx
      · exact List.mem_cons_of_mem c (ih hw2 hx)
    · rw [if_neg hc] at hw
      rcases hsp : splitCh sep t with _ | ⟨h0, r⟩
      · exact absurd hsp (splitCh_ne_nil sep t)
      · rw [hsp] at hw
        rcases List.mem_cons.mp hw with rfl | hw2
        · rcases List.mem_cons.mp hx with rfl | hx2
          · simp
          · exact List.mem_cons_of_mem c (ih (by rw [hsp]; simp) hx2)
        · exact List.mem_cons_of_mem c (ih (by rw [hsp]; simp [hw2]) hx)

/-! ### The postal substitutions fix digit-free strings -/

theorem skipOneWs_subset (r : List Char) : ∀ x ∈ skipOneWs r, x ∈ r := by
  intro x hx
  cases r with
  | nil => simp [skipOneWs] at hx
  | cons c t =>
    rw [skipOneWs] at hx
    by_cases hc : isWsC c = true
    · rw [if_pos hc] at hx
      exact List.mem_cons_of_mem c hx
    · rw [if_neg hc] at hx
      exact hx

theorem subPrefixDigits_none (r : List Char)
    (h : ∀ x ∈ r, isDigitC x = false) :
    matchSubPrefixAt.subPrefixDigits r = none := by
  rcases hsk : skipOneWs r with _ | ⟨d1, _ | ⟨d2, r2⟩⟩
  · simp [matchSubPrefixAt.subPrefixDigits, hsk]
  · simp [matchSubPrefixAt.subPrefixDigits, hsk]
  · have h1 : isDigitC d1 = false :=
      h d1 (skipOneWs_subset r d1 (by rw [hsk]; simp))
    simp [matchSubPrefixAt.subPrefixDigits, hsk, h1]

theorem deBranch_none (l : List Char) (h : ∀ x ∈ l, isDigitC x = false) :
    matchSubPrefixAt.deBranch l = none := by
  rcases l with _ | ⟨d0, r⟩
  · simp [matchSubPrefixAt.deBranch]
  · by_cases hd : lowerChar d0 = 'd'
    · have hr : ∀ x ∈ r, isDigitC x = false := fun x hx => h x (by simp [hx])
      have h1 := subPrefixDigits_none r hr
      rcases r with _ | ⟨c, r2⟩
      · simp [matchSubPrefixAt.deBranch, hd, h1]
      · by_cases hc : c = '-'
        · subst hc
          have h2 := subPrefixDigits_none r2 (fun x hx => hr x (by simp [hx]))
          simp [matchSubPrefixAt.deBranch, hd, h1, h2]
        · simp [matchSubPrefixAt.deBranch, hd, h1, hc]
    · simp [matchSubPrefixAt.deBranch, hd]

theorem matchSubPrefixAt_none (prev : Option Char) (l : List Char)
    (h : ∀ x ∈ l, isDigitC x = false) : matchSubPrefixAt prev l = none := by
  rcases l with _ | ⟨p, _ | ⟨q, r⟩⟩
  · simp [matchSubPrefixAt, matchSubPrefixAt.deBranch]
  · simp [matchSubPrefixAt, deBranch_none [p] h]
  · by_cases hpl : lowerChar p = 'p' ∧ lowerChar q = 'l'
    · have hr := subPrefixDigits_none r (fun x hx => h x (by simp [hx]))
      simp [matchSubPrefixAt, hpl, hr]
    · have hde := deBranch_none (p :: q :: r) h
      simp [matchSubPrefixAt, hpl, hde]

theorem matchSubBareAt_none (prev : Option Char) (l : List Char)
    (h : ∀ x ∈ l, isDigitC x = false) : matchSubBareAt prev l = none := by
  rcases l with _ | ⟨d1, _ | ⟨d2, r⟩⟩
  · simp [matchSubBareAt]
  · simp [matchSubBareAt]
  · have h1 : isDigitC d1 = false := h d1 (by simp)
    simp [matchSubBareAt, h1]

theorem subAllFuel_id (m : Option Char → List Char → Option (Char × List Char))
    (hm : ∀ prev l, (∀ x ∈ l, isDigitC x = false) → m prev l = none)
    (fuel : Nat) :
    ∀ prev l, (∀ x ∈ l, isDigitC x = false) → subAllFuel m fuel prev l = l := by
  induction fuel with
  | zero => intro prev l _; rfl
  | succ n ih =>
    intro prev l h
    cases l with
    | nil => rfl
    | cons c t =>
      rw [subAllFuel, hm prev (c :: t) h,
        ih (some c) t (fun x hx => h x (by simp [hx]))]

theorem subZipPrefixed_id (l : List Char)
    (h : ∀ x ∈ l, isDigitC x = false) : subZipPrefixed l = l :=
  subAllFuel_id matchSubPrefixAt matchSubPrefixAt_none l.length none l h

theorem subZipBare_id (l : List Char)
    (h : ∀ x ∈ l, isDigitC x = false) : subZipBare l = l :=
  subAllFuel_id matchSubBareAt matchSubBareAt_none l.length none l h

/-! ### Separator freedom of the Normalizer's output -/

theorem cutSeps_sep_free (l : List Char) :
    ∀ x ∈ cutSeps l, ¬ (x = ';' ∨ x = ',' ∨ x = '|') := by
  intro x hx
  have := List.mem_takeWhile_imp hx
  simpa using this

theorem cutSeps_id (l : List Char)
    (h : ∀ x ∈ l, ¬ (x = ';' ∨ x = ',' ∨ x = '|')) : cutSeps l = l := by
  induction l with
  | nil => rfl
  | cons c t ih =>
    rw [cutSeps, List.takeWhile_cons, if_pos (by simpa using h c (by simp))]
    rw [show List.takeWhile _ t = cutSeps t from rfl,
      ih (fun x hx => h x (by simp [hx]))]

theorem caseTable_notSep : ∀ p ∈ caseTable,
    ¬ (p.1 = ';' ∨ p.1 = ',' ∨ p.1 = '|') ∧ ¬ (p.2 = ';' ∨ p.2 = ',' ∨ p.2 = '|') := by
  intro p hp
  have h1 : caseTable.all (fun p =>
      !(decide (p.1 = ';' ∨ p.1 = ',' ∨ p.1 = '|')) &&
      !(decide (p.2 = ';' ∨ p.2 = ',' ∨ p.2 = '|'))) = true := by decide
  have := List.all_eq_true.mp h1 p hp
  simp at this
  exact ⟨by simp [this.1.1, this.1.2.1, this.1.2.2],
    by simp [this.2.1, this.2.2.1, this.2.2.2]⟩

theorem caseTable_notWs : ∀ p ∈ caseTable,
    isWsC p.1 = false ∧ isWsC p.2 = false := by
  intro p hp
  have h1 : caseTable.all (fun p => !(isWsC p.1) && !(isWsC p.2)) = true := by decide
  have := List.all_eq_true.mp h1 p hp
  simpa using this

theorem clean_city_sep_free (s : List Char) :
    ∀ x ∈ clean_city s, ¬ (x = ';' ∨ x = ',' ∨ x = '|') := by
  intro x hx
  have hx2 : x ∈ smartTitle (collapseWs (cutSeps
      (cutMarkers (subZipBare (subZipPrefixed s))))) := hx
  rw [smartTitle] at hx2
  rcases mem_joinCh hx2 with rfl | ⟨w, hw, hxw⟩
  · simp
  · rcases List.mem_map.mp hw with ⟨w0, hw0, rfl⟩
    refine capWord_pres (fun ch => ¬ (ch = ';' ∨ ch = ',' ∨ ch = '|'))
      caseTable_notSep ⟨by simp, by simp⟩ (by simp) ?_ x hxw
    intro ch hch
    have hchz := mem_splitCh hw0 hch
    rcases mem_collapseWs hchz with rfl | hch2
    · simp
    · exact cutSeps_sep_free _ ch hch2

/-! ### Collapse and re-casing are fixed points on Normalizer output -/

theorem collapse_title_fix (y : List Char) :
    collapseWs (smartTitle (collapseWs y)) = smartTitle (collapseWs y) ∧
    smartTitle (smartTitle (collapseWs y)) = smartTitle (collapseWs y) := by
  rcases hm : wordsOf y with _ | ⟨w0, ws0⟩
  · have hz : collapseWs y = [] := by rw [collapse_eq_joinWords, hm]; rfl
    rw [hz]
    exact ⟨by decide, by decide⟩
  · have hz : collapseWs y = joinCh ' ' (w0 :: ws0) := by
      rw [collapse_eq_joinWords, hm]
    have hp : ∀ w ∈ w0 :: ws0, w ≠ [] ∧ ∀ c ∈ w, isWsC c = false :=
      fun w hw => wordsOf_props y w (by rw [hm]; exact hw)
    have hT : smartTitle (joinCh ' ' (w0 :: ws0)) =
        joinCh ' ' ((w0 :: ws0).map capWord) :=
      smartTitle_join _ hp (by simp)
    have hcaps : ∀ w ∈ (w0 :: ws0).map capWord,
        w ≠ [] ∧ ∀ c ∈ w, isWsC c = false := by
      intro w hw
      rcases List.mem_map.mp hw with ⟨w1, hw1, rfl⟩
      refine ⟨capWord_ne_nil (hp w1 hw1).1, ?_⟩
      intro x hx
      exact capWord_pres (fun ch => isWsC ch = false) caseTable_notWs
        ⟨by decide, by decide⟩ (by decide) (hp w1 hw1).2 x hx
    constructor
    · rw [hz, hT]
      exact collapse_join _ hcaps
    · rw [hz, hT, smartTitle_join _ hcaps (by simp), List.map_map]
      congr 1
      exact List.map_congr_left (fun w _ => capWord_idem w)

/-- C8 amended: the Normalizer is idempotent on every input whose cleaned
result contains no digit and no annotation-marker substring (in general it
is not: re-casing can create a lowercase marker, and truncation can expose a
postal-shaped digit group, which only a second application removes). -/
theorem c8_amended_idempotent_on_clean (s : List Char)
    (hdig : (clean_city s).all (fun c => !(isDigitC c)) = true)
    (hmark : split_tokens.all (fun tok => !(hasSubB tok (clean_city s))) = true) :
    clean_city (clean_city s) = clean_city s := by
  have hdig' : ∀ x ∈ clean_city s, isDigitC x = false := by
    intro x hx
    have := List.all_eq_true.mp hdig x hx
    simpa using this
  have hmark' : ∀ tok ∈ split_tokens, hasSubB tok (clean_city s) = false := by
    intro tok htok
    have := List.all_eq_true.mp hmark tok htok
    simpa using this
  have h1 : subZipPrefixed (clean_city s) = clean_city s :=
    subZipPrefixed_id _ hdig'
  have h2 : subZipBare (clean_city s) = clean_city s := subZipBare_id _ hdig'
  have h3 : cutMarkers (clean_city s) = clean_city s := by
    rw [cutMarkers_def]
    rw [cutTok_id_of_no_sub _ _ (hmark' _ (by simp [split_tokens])),
      cutTok_id_of_no_sub _ _ (hmark' _ (by simp [split_tokens])),
      cutTok_id_of_no_sub _ _ (hmark' _ (by simp [split_tokens])),
      cutTok_id_of_no_sub _ _ (hmark' _ (by simp [split_tokens]))]
  have h4 : cutSeps (clean_city s) = clean_city s :=
    cutSeps_id _ (clean_city_sep_free s)
  have h5 := collapse_title_fix (cutSeps (cutMarkers (subZipBare (subZipPrefixed s))))
  calc clean_city (clean_city s)
      = smartTitle (collapseWs (cutSeps (cutMarkers
          (subZipBare (subZipPrefixed (clean_city s)))))) := rfl
    _ = smartTitle (collapseWs (clean_city s)) := by rw [h1, h2, h3, h4]
    _ = smartTitle (clean_city s) := by
        rw [show collapseWs (clean_city s) = clean_city s from h5.1]
    _ = clean_city s := h5.2

/-- C8 amended witness: "ABC  def" cleans to "Abc Def", which is digit- and
marker-free, and a second application leaves it unchanged. -/
theorem c8_amended_idempotent_on_clean_witness :
    clean_city (clean_city "ABC  def".data) = clean_city "ABC  def".data :=
  c8_amended_idempotent_on_clean "ABC  def".data (by decide) (by decide)

end TransportOrders
